import Mathlib

/-!
# Verification of the oasis-engine rendering core

Shallow embedding of the performance-critical core of the engine:

* `Oasis.RenderQueue` — the custom median-of-three quicksort with
  insertion-sort fallback used to order render elements, together with the
  two canonical comparators (near-to-far, far-to-near).
* `Oasis.CameraState` — the Camera component's dirty-flag state machine for
  projection-derived data (lazy recomputation, manual projection override).
* `Oasis.CameraMath` — exact-arithmetic (ℚ) model of the Camera's
  world/viewport coordinate transforms.
* `Oasis.Text2D` — the glyph-atlas paging state machine of `SubFont`.
* `Oasis.TextR` — the `TextRenderer` property setters, dirty-flag word and
  the `_render` entry guard.

Loops of the source are embedded as structurally recursive functions over an
explicit iteration budget (`fuel`); every wrapper supplies the exact budget
the corresponding `for`/`while` loop of the source runs for, so the wrappers
compute exactly as the source does.  JavaScript numbers that the engine only
ever adds, subtracts and compares are modelled as exact integers (`Int`);
numbers that are divided are modelled as exact rationals (ℚ).
-/

namespace Oasis

/-- A render element as seen by `RenderQueue.sort`: it carries its owning
component's sort keys (`priority`, `_distanceForSort`) plus an identity tag
`id` that distinguishes comparator-equal elements (object identity). -/
structure RElem where
  priority : Int
  distanceForSort : Int
  id : Nat
deriving DecidableEq, Repr, Inhabited

namespace RenderQueue

/-- `RenderQueue._compareFromNearToFar`:
`a.component.priority - b.component.priority || a.component._distanceForSort - b.component._distanceForSort`
(JS `x || y` returns `x` when `x` is nonzero, else `y`). -/
def _compareFromNearToFar (a b : RElem) : Int :=
  let c := a.priority - b.priority
  if c ≠ 0 then c else a.distanceForSort - b.distanceForSort

/-- `RenderQueue._compareFromFarToNear`:
`a.component.priority - b.component.priority || b.component._distanceForSort - a.component._distanceForSort`. -/
def _compareFromFarToNear (a b : RElem) : Int :=
  let c := a.priority - b.priority
  if c ≠ 0 then c else b.distanceForSort - a.distanceForSort

section SortDefs

variable {T : Type} [Inhabited T]

/-- Array read `a[i]` (the algorithm only ever reads in-range indices). -/
def get (a : List T) (i : Nat) : T := a.getD i default

/-- Inner loop of `_insertionSort`:
`for (j = i - 1; j >= from; j--) { tmp = a[j]; if (cmp(tmp, element) > 0) a[j+1] = tmp; else break; } a[j+1] = element;`
`fuel` is the number of loop iterations still possible (`j - from + 1`);
when it reaches `0` the loop has walked past `from` and the trailing write
lands at index `from`. -/
def insertLoopF (cmp : T → T → Int) (element : T) (from_ : Nat) :
    Nat → List T → Nat → List T
  | 0, a, _ => a.set from_ element
  | fuel + 1, a, j =>
    let tmp := get a j
    if cmp tmp element > 0 then
      insertLoopF cmp element from_ fuel (a.set (j + 1) tmp) (j - 1)
    else
      a.set (j + 1) element

/-- Outer loop of `_insertionSort`: `for (i = from + 1; i < to; i++) …`;
`fuel` is the remaining iteration count `to - i`. -/
def insSortLoopF (cmp : T → T → Int) (from_ : Nat) :
    Nat → List T → Nat → List T
  | 0, a, _ => a
  | fuel + 1, a, i =>
    let element := get a i
    insSortLoopF cmp from_ fuel
      (insertLoopF cmp element from_ (i - from_) a (i - 1)) (i + 1)

/-- `RenderQueue._insertionSort(a, from, to, compareFunc)`. -/
def _insertionSort (cmp : T → T → Int) (a : List T) (from_ to_ : Nat) : List T :=
  insSortLoopF cmp from_ (to_ - (from_ + 1)) a (from_ + 1)

/-- The `do { high_start--; if (high_start == i) break partition; … } while (order > 0)`
scan inside the partition loop of `_quickSort`.  Returns `none` on
`break partition`, else `some (high_start, order)` with the final scan
position and comparison result.  `fuel` bounds the number of decrements
(`high_start - i` at the call site). -/
def doScanF (cmp : T → T → Int) (pivot : T) (a : List T) (i : Nat) :
    Nat → Nat → Option (Nat × Int)
  | 0, _ => none
  | fuel + 1, high_start =>
    let hs := high_start - 1
    if hs = i then none
    else
      let top := get a hs
      let order := cmp top pivot
      if order > 0 then doScanF cmp pivot a i fuel hs
      else some (hs, order)

/-- The `partition:` loop of `_quickSort`
(`for (i = low_end + 1; i < high_start; i++) …`), returning the final array
together with `low_end` and `high_start`.  `fuel` bounds the remaining
iterations (`high_start - i` at the call site suffices, every step shrinks
that difference). -/
def partitionLoopF (cmp : T → T → Int) (pivot : T) :
    Nat → List T → Nat → Nat → Nat → List T × Nat × Nat
  | 0, a, low_end, high_start, _ => (a, low_end, high_start)
  | fuel + 1, a, low_end, high_start, i =>
    if i ≥ high_start then (a, low_end, high_start)
    else
      let element := get a i
      let order := cmp element pivot
      if order < 0 then
        let a := (a.set i (get a low_end)).set low_end element
        partitionLoopF cmp pivot fuel a (low_end + 1) high_start (i + 1)
      else if order > 0 then
        match doScanF cmp pivot a i (high_start - i) high_start with
        | none => (a, low_end, i)
        | some (hs, order2) =>
          let top := get a hs
          let a := (a.set i top).set hs element
          if order2 < 0 then
            let element2 := get a i
            let a := (a.set i (get a low_end)).set low_end element2
            partitionLoopF cmp pivot fuel a (low_end + 1) hs (i + 1)
          else
            partitionLoopF cmp pivot fuel a low_end hs (i + 1)
      else
        partitionLoopF cmp pivot fuel a low_end high_start (i + 1)

/-- The pivot-selection block of `_quickSort`: the in-register three-way sort
of `v0 = a[from]`, `v1 = a[to-1]`, `v2 = a[third_index]` (three pairwise
comparisons and conditional register swaps), returning the final
`(v0, v1, v2)` with `v0 <= v1 <= v2`. -/
def medianOfThree (cmp : T → T → Int) (x0 x1 x2 : T) : T × T × T :=
  let c01 := cmp x0 x1
  let p1 : T × T := if c01 > 0 then (x1, x0) else (x0, x1)
  let c02 := cmp p1.1 x2
  if c02 ≥ 0 then (x2, p1.1, p1.2)
  else
    let c12 := cmp p1.2 x2
    if c12 > 0 then (p1.1, x2, p1.2) else (p1.1, p1.2, x2)

/-- The array-setup block of `_quickSort` before the partition loop:
`a[from] = v0; a[to-1] = v2; pivot = v1; a[third_index] = a[low_end];
a[low_end] = pivot` (with `low_end = from + 1`).  Returns the prepared array
and the pivot. -/
def setupPartition (cmp : T → T → Int) (a : List T) (from_ to_ : Nat) : List T × T :=
  let third_index := (from_ + to_) / 2
  let m := medianOfThree cmp (get a from_) (get a (to_ - 1)) (get a third_index)
  let a := a.set from_ m.1
  let a := a.set (to_ - 1) m.2.2
  let pivot := m.2.1
  let a := a.set third_index (get a (from_ + 1))
  let a := a.set (from_ + 1) pivot
  (a, pivot)

/-- `RenderQueue._quickSort` (the v8-derived three-way quicksort).  The
`while (true)` tail-loop and the recursive call both shrink `to - from`, so
`fuel = to - from` at the top call bounds the whole recursion. -/
def quickSortF (cmp : T → T → Int) :
    Nat → List T → Nat → Nat → List T
  | 0, a, _, _ => a
  | fuel + 1, a, from_, to_ =>
    if to_ - from_ ≤ 10 then _insertionSort cmp a from_ to_
    else
      let s := setupPartition cmp a from_ to_
      let low_end := from_ + 1
      let high_start := to_ - 1
      match partitionLoopF cmp s.2 (high_start - (low_end + 1)) s.1 low_end high_start (low_end + 1) with
      | (a2, le2, hs2) =>
        if to_ - hs2 < le2 - from_ then
          quickSortF cmp fuel (quickSortF cmp fuel a2 hs2 to_) from_ le2
        else
          quickSortF cmp fuel (quickSortF cmp fuel a2 from_ le2) hs2 to_

/-- `RenderQueue._quickSort(a, from, to, compareFunc)`. -/
def _quickSort (cmp : T → T → Int) (a : List T) (from_ to_ : Nat) : List T :=
  quickSortF cmp (to_ - from_) a from_ to_

/-- The range `[lo, hi)` of `a` is sorted for comparator `cmp`: every adjacent
pair compares `≤ 0`. -/
def adjSorted (cmp : T → T → Int) (a : List T) (lo hi : Nat) : Prop :=
  ∀ k, lo ≤ k → k + 1 < hi → cmp (get a k) (get a (k + 1)) ≤ 0

end SortDefs

/-- `RenderQueue.sort(compareFunc)`: `this._quickSort(this.items, 0, this.items.length, compareFunc)`. -/
def sort (cmp : RElem → RElem → Int) (items : List RElem) : List RElem :=
  _quickSort cmp items 0 items.length

/-- The ordering the spec ascribes to the near-to-far comparator: ascending
lexicographically in `(priority, distance)`. -/
def nearLE (x y : RElem) : Prop :=
  x.priority < y.priority ∨
    (x.priority = y.priority ∧ x.distanceForSort ≤ y.distanceForSort)

/-- The ordering the spec ascribes to the far-to-near comparator: ascending
priority, descending distance for equal priorities. -/
def farLE (x y : RElem) : Prop :=
  x.priority < y.priority ∨
    (x.priority = y.priority ∧ y.distanceForSort ≤ x.distanceForSort)

/-- The pair of sort keys of a render element. -/
def keyOf (x : RElem) : Int × Int := (x.priority, x.distanceForSort)

/-- `nearLE` on key pairs. -/
def keyNearLE (p q : Int × Int) : Prop := p.1 < q.1 ∨ (p.1 = q.1 ∧ p.2 ≤ q.2)

/-- `farLE` on key pairs. -/
def keyFarLE (p q : Int × Int) : Prop := p.1 < q.1 ∨ (p.1 = q.1 ∧ q.2 ≤ p.2)

/-- Eleven comparator-equal elements with distinct identities: an
already-sorted input on which `RenderQueue.sort` moves elements. -/
def elevenEqual : List RElem :=
  [⟨0, 0, 0⟩, ⟨0, 0, 1⟩, ⟨0, 0, 2⟩, ⟨0, 0, 3⟩, ⟨0, 0, 4⟩, ⟨0, 0, 5⟩,
   ⟨0, 0, 6⟩, ⟨0, 0, 7⟩, ⟨0, 0, 8⟩, ⟨0, 0, 9⟩, ⟨0, 0, 10⟩]

end RenderQueue

/-- Modelled from the spec: the math library's `Matrix` is an external
collaborator (§6, assumed correct).  For the Camera's caching state machine
only the identity of the stored matrix matters, so matrices are modelled
freely by how they were constructed: `perspectiveM` / `orthoM` record the
arguments the Camera passes to `Matrix.perspective` / `Matrix.ortho`
symbolically (the field of view in degrees; `degreeToRadian` and `tan` stay
inside the external library), and `custom n` stands for an arbitrary
externally produced matrix, e.g. one assigned manually to
`projectionMatrix`. -/
inductive MatF where
  | identity : MatF
  | perspectiveM (fovDeg aspect near far : ℚ) : MatF
  | orthoM (width height near far : ℚ) : MatF
  | custom (n : Nat) : MatF
deriving DecidableEq, Repr, Inhabited

/-- A `Vector4` of exact rationals (used for the normalized viewport). -/
structure Vec4Q where
  x : ℚ
  y : ℚ
  z : ℚ
  w : ℚ
deriving DecidableEq, Repr, Inhabited

/-- The Camera fields involved in projection-matrix derivation, caching and
the projection-related dirty flags.  `BoolUpdateFlag`s (the transform-backed
`_isInvViewProjDirty`) are modelled as plain booleans.  The field
`customAspectValue` models `_customAspectRatio` (`none` = `undefined`). -/
structure CameraState where
  isProjMatSetting : Bool
  nearClipPlane : ℚ
  farClipPlane : ℚ
  fieldOfView : ℚ
  orthographicSize : ℚ
  isProjectionDirty : Bool
  isInvProjMatDirty : Bool
  isFrustumProjectDirty : Bool
  customAspectValue : Option ℚ
  isOrthographic : Bool
  projectionMatrix : MatF
  viewport : Vec4Q
  inverseProjectionMatrix : MatF
  lastAspectSizeX : ℚ
  lastAspectSizeY : ℚ
  invViewProjMat : MatF
  isInvViewProjDirty : Bool
deriving DecidableEq, Repr

namespace CameraState

/-- The Camera's initial state (field initializers of the source; fresh
`Matrix()` instances are identity matrices, update flags start dirty). -/
def init : CameraState where
  isProjMatSetting := false
  nearClipPlane := 1 / 10
  farClipPlane := 100
  fieldOfView := 45
  orthographicSize := 10
  isProjectionDirty := true
  isInvProjMatDirty := true
  isFrustumProjectDirty := true
  customAspectValue := none
  isOrthographic := false
  projectionMatrix := .identity
  viewport := ⟨0, 0, 1, 1⟩
  inverseProjectionMatrix := .identity
  lastAspectSizeX := 0
  lastAspectSizeY := 0
  invViewProjMat := .identity
  isInvViewProjDirty := true

/-- `Camera._projMatChange()`. -/
def _projMatChange (s : CameraState) : CameraState :=
  { s with isFrustumProjectDirty := true, isProjectionDirty := true,
           isInvProjMatDirty := true, isInvViewProjDirty := true }

/-- `set nearClipPlane(value)`. -/
def set_nearClipPlane (s : CameraState) (value : ℚ) : CameraState :=
  _projMatChange { s with nearClipPlane := value }

/-- `set farClipPlane(value)`. -/
def set_farClipPlane (s : CameraState) (value : ℚ) : CameraState :=
  _projMatChange { s with farClipPlane := value }

/-- `set fieldOfView(value)`. -/
def set_fieldOfView (s : CameraState) (value : ℚ) : CameraState :=
  _projMatChange { s with fieldOfView := value }

/-- `set aspectRatio(value)` (stores the manual override). -/
def set_aspect (s : CameraState) (value : ℚ) : CameraState :=
  _projMatChange { s with customAspectValue := some value }

/-- `set viewport(value)` (`copyFrom` on a fresh value, then
`_projMatChange`). -/
def set_viewport (s : CameraState) (value : Vec4Q) : CameraState :=
  _projMatChange { s with viewport := value }

/-- `set isOrthographic(value)`. -/
def set_isOrthographic (s : CameraState) (value : Bool) : CameraState :=
  _projMatChange { s with isOrthographic := value }

/-- `set orthographicSize(value)`. -/
def set_orthographicSize (s : CameraState) (value : ℚ) : CameraState :=
  _projMatChange { s with orthographicSize := value }

/-- `get aspectRatio` for a canvas of pixel size `w × h`:
`customAspectRatio ?? (canvas.width * viewport.z) / (canvas.height * viewport.w)`. -/
def aspectValue (s : CameraState) (w h : ℚ) : ℚ :=
  match s.customAspectValue with
  | some v => v
  | none => (w * s.viewport.z) / (h * s.viewport.w)

/-- `set projectionMatrix(value)`. -/
def set_projectionMatrix (s : CameraState) (value : MatF) : CameraState :=
  _projMatChange { s with projectionMatrix := value, isProjMatSetting := true }

/-- `resetProjectionMatrix()`. -/
def resetProjectionMatrix (s : CameraState) : CameraState :=
  _projMatChange { s with isProjMatSetting := false }

/-- `get projectionMatrix` for a canvas of pixel size `w × h`: returns the
matrix and the camera state after the read (the getter mutates cached
state on the recompute path). -/
def getProjectionMatrix (s : CameraState) (w h : ℚ) : MatF × CameraState :=
  if (s.isProjectionDirty = false ∨ s.isProjMatSetting = true) ∧
      s.lastAspectSizeX = w ∧ s.lastAspectSizeY = h then
    (s.projectionMatrix, s)
  else
    let aspect := aspectValue s w h
    let m : MatF :=
      if s.isOrthographic = false then
        .perspectiveM s.fieldOfView aspect s.nearClipPlane s.farClipPlane
      else
        .orthoM (s.orthographicSize * aspect) s.orthographicSize
          s.nearClipPlane s.farClipPlane
    (m, { s with isProjectionDirty := false, lastAspectSizeX := w,
                 lastAspectSizeY := h, projectionMatrix := m })

/-- All four projection-derived dirty bits are set. -/
def projDirtyAll (s : CameraState) : Prop :=
  s.isProjectionDirty = true ∧ s.isInvProjMatDirty = true ∧
  s.isFrustumProjectDirty = true ∧ s.isInvViewProjDirty = true

/-- The three stored matrices of `s` equal those of `t` (no matrix was
recomputed). -/
def matricesEq (s t : CameraState) : Prop :=
  s.projectionMatrix = t.projectionMatrix ∧
  s.inverseProjectionMatrix = t.inverseProjectionMatrix ∧
  s.invViewProjMat = t.invViewProjMat

end CameraState

namespace CameraMath

/-- A `Vector3` over exact rationals. -/
@[ext]
structure Vec3Q where
  x : ℚ
  y : ℚ
  z : ℚ
deriving DecidableEq, Repr, Inhabited

/-- A homogeneous 4-vector over exact rationals. -/
@[ext]
structure Vec4Qh where
  x : ℚ
  y : ℚ
  z : ℚ
  w : ℚ
deriving DecidableEq, Repr, Inhabited

/-- A 4×4 matrix over exact rationals, entry `mRC` at row `R`, column `C`
(the source stores matrices column-major: its `elements[c*4+r]` is `mRC`). -/
@[ext]
structure Mat4 where
  m00 : ℚ
  m01 : ℚ
  m02 : ℚ
  m03 : ℚ
  m10 : ℚ
  m11 : ℚ
  m12 : ℚ
  m13 : ℚ
  m20 : ℚ
  m21 : ℚ
  m22 : ℚ
  m23 : ℚ
  m30 : ℚ
  m31 : ℚ
  m32 : ℚ
  m33 : ℚ
deriving DecidableEq, Repr, Inhabited

/-- Matrix–column-vector application. -/
def Mat4.apply4 (m : Mat4) (v : Vec4Qh) : Vec4Qh :=
  ⟨m.m00 * v.x + m.m01 * v.y + m.m02 * v.z + m.m03 * v.w,
   m.m10 * v.x + m.m11 * v.y + m.m12 * v.z + m.m13 * v.w,
   m.m20 * v.x + m.m21 * v.y + m.m22 * v.z + m.m23 * v.w,
   m.m30 * v.x + m.m31 * v.y + m.m32 * v.z + m.m33 * v.w⟩

/-- `Matrix.multiply(left, right, out)` (modelled from the spec: external
math library): ordinary matrix product `left * right`. -/
def Mat4.mul (a b : Mat4) : Mat4 :=
  ⟨a.m00 * b.m00 + a.m01 * b.m10 + a.m02 * b.m20 + a.m03 * b.m30,
   a.m00 * b.m01 + a.m01 * b.m11 + a.m02 * b.m21 + a.m03 * b.m31,
   a.m00 * b.m02 + a.m01 * b.m12 + a.m02 * b.m22 + a.m03 * b.m32,
   a.m00 * b.m03 + a.m01 * b.m13 + a.m02 * b.m23 + a.m03 * b.m33,
   a.m10 * b.m00 + a.m11 * b.m10 + a.m12 * b.m20 + a.m13 * b.m30,
   a.m10 * b.m01 + a.m11 * b.m11 + a.m12 * b.m21 + a.m13 * b.m31,
   a.m10 * b.m02 + a.m11 * b.m12 + a.m12 * b.m22 + a.m13 * b.m32,
   a.m10 * b.m03 + a.m11 * b.m13 + a.m12 * b.m23 + a.m13 * b.m33,
   a.m20 * b.m00 + a.m21 * b.m10 + a.m22 * b.m20 + a.m23 * b.m30,
   a.m20 * b.m01 + a.m21 * b.m11 + a.m22 * b.m21 + a.m23 * b.m31,
   a.m20 * b.m02 + a.m21 * b.m12 + a.m22 * b.m22 + a.m23 * b.m32,
   a.m20 * b.m03 + a.m21 * b.m13 + a.m22 * b.m23 + a.m23 * b.m33,
   a.m30 * b.m00 + a.m31 * b.m10 + a.m32 * b.m20 + a.m33 * b.m30,
   a.m30 * b.m01 + a.m31 * b.m11 + a.m32 * b.m21 + a.m33 * b.m31,
   a.m30 * b.m02 + a.m31 * b.m12 + a.m32 * b.m22 + a.m33 * b.m32,
   a.m30 * b.m03 + a.m31 * b.m13 + a.m32 * b.m23 + a.m33 * b.m33⟩

/-- Scalar multiple of a homogeneous vector. -/
def smul4 (k : ℚ) (v : Vec4Qh) : Vec4Qh := ⟨k * v.x, k * v.y, k * v.z, k * v.w⟩

/-- `Vector3.transformToVec4(v, m, out)` (modelled from the spec: external
math library): apply `m` to `(v, 1)` without dividing by `w`. -/
def transformToVec4 (v : Vec3Q) (m : Mat4) : Vec4Qh :=
  m.apply4 ⟨v.x, v.y, v.z, 1⟩

/-- `Vector3.transformCoordinate(v, m, out)` (modelled from the spec:
external math library): apply `m` to `(v, 1)` and divide by the resulting
`w`. -/
def transformCoordinate (v : Vec3Q) (m : Mat4) : Vec3Q :=
  let r := transformToVec4 v m
  ⟨r.x / r.w, r.y / r.w, r.z / r.w⟩

/-- The pieces of Camera state that its coordinate transforms read: the
owning transform's world rotation (a quaternion) and world position, and the
projection parameters.  `fcot` models `1 / tan(degreeToRadian(fieldOfView) / 2)`
— the only way the field of view enters `Matrix.perspective`; the tangent is
computed by the external math library, so it is carried as an exact rational
parameter (positive for any field of view in `(0°, 180°)`).  `aspect` is the
effective `aspectRatio` value. -/
structure CameraP where
  qx : ℚ
  qy : ℚ
  qz : ℚ
  qw : ℚ
  tx : ℚ
  ty : ℚ
  tz : ℚ
  fcot : ℚ
  aspect : ℚ
  orthographicSize : ℚ
  nearClipPlane : ℚ
  farClipPlane : ℚ
  isOrthographic : Bool
deriving DecidableEq, Repr

namespace CameraP

/-- `Matrix.rotationTranslation(worldRotationQuaternion, worldPosition)`
(modelled from the spec: external math library, standard
quaternion-to-matrix formula). -/
def rotationTranslation (c : CameraP) : Mat4 :=
  ⟨1 - 2 * c.qy ^ 2 - 2 * c.qz ^ 2, 2 * c.qx * c.qy - 2 * c.qw * c.qz,
     2 * c.qx * c.qz + 2 * c.qw * c.qy, c.tx,
   2 * c.qx * c.qy + 2 * c.qw * c.qz, 1 - 2 * c.qx ^ 2 - 2 * c.qz ^ 2,
     2 * c.qy * c.qz - 2 * c.qw * c.qx, c.ty,
   2 * c.qx * c.qz - 2 * c.qw * c.qy, 2 * c.qy * c.qz + 2 * c.qw * c.qx,
     1 - 2 * c.qx ^ 2 - 2 * c.qy ^ 2, c.tz,
   0, 0, 0, 1⟩

/-- The view matrix: the source computes
`Matrix.rotationTranslation(q, pos, viewMatrix); viewMatrix.invert()`.
Modelled from the spec: `Matrix.invert` is external math (assumed correct);
for a rotation–translation matrix it returns the closed-form rigid inverse
`[Rᵀ | -Rᵀ t]`. -/
def viewMatrixP (c : CameraP) : Mat4 :=
  let r := rotationTranslation c
  ⟨r.m00, r.m10, r.m20, -(r.m00 * c.tx + r.m10 * c.ty + r.m20 * c.tz),
   r.m01, r.m11, r.m21, -(r.m01 * c.tx + r.m11 * c.ty + r.m21 * c.tz),
   r.m02, r.m12, r.m22, -(r.m02 * c.tx + r.m12 * c.ty + r.m22 * c.tz),
   0, 0, 0, 1⟩

/-- `Matrix.perspective(fovyRad, aspect, near, far)` (modelled from the
spec: external math, gl-matrix formula with `fcot = 1 / tan(fovy / 2)` and
`nf = 1 / (near - far)`). -/
def perspectiveQ (fcot aspect n f : ℚ) : Mat4 :=
  ⟨fcot / aspect, 0, 0, 0,
   0, fcot, 0, 0,
   0, 0, (f + n) * (1 / (n - f)), 2 * f * n * (1 / (n - f)),
   0, 0, -1, 0⟩

/-- `Matrix.ortho(left, right, bottom, top, near, far)` (modelled from the
spec: external math, gl-matrix formula). -/
def orthoQ (l r b t n f : ℚ) : Mat4 :=
  ⟨-2 * (1 / (l - r)), 0, 0, (l + r) * (1 / (l - r)),
   0, -2 * (1 / (b - t)), 0, (t + b) * (1 / (b - t)),
   0, 0, 2 * (1 / (n - f)), (f + n) * (1 / (n - f)),
   0, 0, 0, 1⟩

/-- `get projectionMatrix` on the automatic-derivation path (camera not
manually overridden, caches resolved). -/
def projectionMatrixP (c : CameraP) : Mat4 :=
  if c.isOrthographic = false then
    perspectiveQ c.fcot c.aspect c.nearClipPlane c.farClipPlane
  else
    orthoQ (-(c.orthographicSize * c.aspect)) (c.orthographicSize * c.aspect)
      (-c.orthographicSize) c.orthographicSize c.nearClipPlane c.farClipPlane

/-- `Matrix.invert` applied to the perspective matrix (modelled from the
spec: external math, exact inverse in closed form). -/
def perspectiveInvQ (fcot aspect n f : ℚ) : Mat4 :=
  ⟨aspect / fcot, 0, 0, 0,
   0, 1 / fcot, 0, 0,
   0, 0, 0, -1,
   0, 0, 1 / (2 * f * n * (1 / (n - f))),
     ((f + n) * (1 / (n - f))) / (2 * f * n * (1 / (n - f)))⟩

/-- `Matrix.invert` applied to the symmetric orthographic matrix (modelled
from the spec: external math, exact inverse in closed form; `hw`/`hh` are
the half-extents `orthographicSize * aspect` and `orthographicSize`). -/
def orthoInvQ (hw hh n f : ℚ) : Mat4 :=
  ⟨hw, 0, 0, 0,
   0, hh, 0, 0,
   0, 0, (n - f) / 2, -((f + n) / 2),
   0, 0, 0, 1⟩

/-- `Camera._getInverseProjectionMatrix()` (cache resolved). -/
def inverseProjectionMatrixP (c : CameraP) : Mat4 :=
  if c.isOrthographic = false then
    perspectiveInvQ c.fcot c.aspect c.nearClipPlane c.farClipPlane
  else
    orthoInvQ (c.orthographicSize * c.aspect) c.orthographicSize
      c.nearClipPlane c.farClipPlane

/-- `transform.worldMatrix` (modelled from the spec: external Transform;
the camera's world matrix is its rotation–translation matrix — the view
matrix construction ignores scale, so an unscaled camera transform is
assumed). -/
def worldMatrixP (c : CameraP) : Mat4 := rotationTranslation c

/-- `Camera._getInvViewProjMat()` (cache resolved):
`Matrix.multiply(transform.worldMatrix, inverseProjectionMatrix, out)`. -/
def invViewProjMatP (c : CameraP) : Mat4 :=
  (worldMatrixP c).mul (inverseProjectionMatrixP c)

/-- `Camera.worldToViewportPoint(point, out)`. -/
def worldToViewportPoint (c : CameraP) (point : Vec3Q) : Vec3Q :=
  let cameraPoint := transformCoordinate point (viewMatrixP c)
  let viewportPoint := transformToVec4 cameraPoint (projectionMatrixP c)
  let w := viewportPoint.w
  ⟨(viewportPoint.x / w + 1) * (1 / 2), (1 - viewportPoint.y / w) * (1 / 2),
    -cameraPoint.z⟩

/-- `Camera._innerViewportToWorldPoint(x, y, z, invViewProjMat, out)`. -/
def _innerViewportToWorldPoint (x y z : ℚ) (m : Mat4) : Vec3Q :=
  transformCoordinate ⟨x * 2 - 1, 1 - y * 2, z * 2 - 1⟩ m

/-- `Camera.viewportToWorldPoint(point, out)`. -/
def viewportToWorldPoint (c : CameraP) (point : Vec3Q) : Vec3Q :=
  let nf := 1 / (c.nearClipPlane - c.farClipPlane)
  let z : ℚ :=
    if c.isOrthographic = true then
      -point.z * 2 * nf + (c.farClipPlane + c.nearClipPlane) * nf
    else
      (-point.z * (c.nearClipPlane + c.farClipPlane) * nf +
        2 * c.nearClipPlane * c.farClipPlane * nf) / point.z
  _innerViewportToWorldPoint point.x point.y ((z + 1) * (1 / 2))
    (invViewProjMatP c)

/-- A concrete perspective camera: rotation quaternion `(1/2, 1/2, 1/2, 1/2)`
(a unit quaternion), position `(2, 3, 5)`, `fcot = 1`, `aspect = 1`,
`near = 1`, `far = 3`. -/
def camPersp : CameraP := ⟨1/2, 1/2, 1/2, 1/2, 2, 3, 5, 1, 1, 10, 1, 3, false⟩

/-- A concrete orthographic camera with the same pose, `orthographicSize = 5`,
`aspect = 2`, `near = -1`, `far = 4`. -/
def camOrtho : CameraP := ⟨1/2, 1/2, 1/2, 1/2, 2, 3, 5, 1, 2, 5, -1, 4, true⟩

/-- A concrete world-space probe point (camera-space depth 2 for `camPersp`). -/
def pProbe : Vec3Q := ⟨0, 3, 5⟩

end CameraP

end CameraMath

namespace Text2D

/-- The glyph data `SubFont` handles: the character key (code point), the
packing footprint of its bitmap in texels (`w * h`), and the atlas-page
stamp `index` written by `_addCharInfo` (`-1` until stamped). -/
structure CharInfoM where
  ch : Nat
  area : Nat
  index : Int
deriving DecidableEq, Repr

/-- Modelled from the spec: `FontAtlas` is the glyph-rasterization/packing
collaborator, exposing `uploadCharTexture(charInfo) → success : bool`,
`addCharInfo(char, charInfo)`, `getCharInfo(char)` and an owned GPU texture.
A page is fixed-size; the model tracks the remaining packing capacity in
texels and the char-info map as an insertion list (newest first, so a later
insert for the same key wins on lookup). -/
structure FontAtlasM where
  texture : Nat
  chars : List CharInfoM
  space : Nat
deriving DecidableEq, Repr

/-- A fixed-size page holds `256 * 256` texels (`new Texture2D(engine, 256,
256)`). -/
def atlasCapacity : Nat := 256 * 256

/-- `new FontAtlas(engine)` with a fresh `Texture2D(engine, 256, 256)`;
`tex` is the id of the allocated texture. -/
def FontAtlasM.new (tex : Nat) : FontAtlasM := ⟨tex, [], atlasCapacity⟩

/-- Modelled from the spec: `FontAtlas.uploadCharTexture` places the glyph
bitmap if it still fits on the page and reports failure otherwise (page
full). -/
def FontAtlasM.uploadCharTexture (a : FontAtlasM) (ci : CharInfoM) :
    Bool × FontAtlasM :=
  if ci.area ≤ a.space then (true, { a with space := a.space - ci.area })
  else (false, a)

/-- Modelled from the spec: `FontAtlas.addCharInfo(char, charInfo)` records
the glyph in the page's char-info map. -/
def FontAtlasM.addCharInfo (a : FontAtlasM) (ci : CharInfoM) : FontAtlasM :=
  { a with chars := ci :: a.chars }

/-- Modelled from the spec: `FontAtlas.getCharInfo(char)` looks the glyph
up in the page's map. -/
def FontAtlasM.getCharInfo (a : FontAtlasM) (ch : Nat) : Option CharInfoM :=
  a.chars.find? (fun ci => ci.ch == ch)

/-- `SubFont`'s state: the atlas-page list `_fontAtlases`, the cursor
`_lastIndex`, and a fresh-texture counter standing for the engine's texture
allocation. -/
structure SubFontM where
  fontAtlases : List FontAtlasM
  lastIndex : Int
  nextTexture : Nat
deriving DecidableEq, Repr

/-- A freshly constructed `SubFont`: no pages, cursor `-1`. -/
def SubFontM.init : SubFontM := ⟨[], -1, 0⟩

/-- `SubFont._createFontAtlas()`: push a fresh fixed-size page. -/
def SubFontM._createFontAtlas (s : SubFontM) : SubFontM :=
  { s with
    fontAtlases := s.fontAtlases ++ [FontAtlasM.new s.nextTexture],
    nextTexture := s.nextTexture + 1 }

/-- `SubFont._uploadCharTexture(charInfo)`: if the cursor is `-1`, create
the first page and advance the cursor; try the cursor page; on packing
failure create one fresh page, retry the upload once on it (its outcome is
not checked), and advance the cursor. -/
def SubFontM._uploadCharTexture (s : SubFontM) (ci : CharInfoM) : SubFontM :=
  let s1 := if s.lastIndex = -1 then s._createFontAtlas else s
  let li1 : Int := if s.lastIndex = -1 then s.lastIndex + 1 else s.lastIndex
  let fa := s1.fontAtlases.getD li1.toNat (FontAtlasM.new 0)
  let r := fa.uploadCharTexture ci
  if r.1 then
    { s1 with fontAtlases := s1.fontAtlases.set li1.toNat r.2, lastIndex := li1 }
  else
    let s2 := s1._createFontAtlas
    let r2 := (FontAtlasM.new s1.nextTexture).uploadCharTexture ci
    { s2 with
      fontAtlases := s2.fontAtlases.set (s2.fontAtlases.length - 1) r2.2,
      lastIndex := li1 + 1 }

/-- `SubFont._addCharInfo(char, charInfo)`: stamp the glyph with the cursor
page index and record it on the cursor page; returns the updated state and
the stamped record.  (The source indexes `fontAtlases[_lastIndex]`, so the
call is only meaningful once an upload has set `_lastIndex ≥ 0`.) -/
def SubFontM._addCharInfo (s : SubFontM) (ci : CharInfoM) :
    SubFontM × CharInfoM :=
  let ci2 := { ci with index := s.lastIndex }
  ({ s with
      fontAtlases := s.fontAtlases.set s.lastIndex.toNat
        ((s.fontAtlases.getD s.lastIndex.toNat (FontAtlasM.new 0)).addCharInfo
          ci2) },
   ci2)

/-- `SubFont._getCharInfo(char)`: linear scan over ALL pages, first hit
wins. -/
def SubFontM._getCharInfo (s : SubFontM) (ch : Nat) : Option CharInfoM :=
  s.fontAtlases.findSome? (fun fa => fa.getCharInfo ch)

/-- `SubFont._getTextureByIndex(index)`: the indexed page's texture, or
`none` when there is no such page. -/
def SubFontM._getTextureByIndex (s : SubFontM) (index : Int) : Option Nat :=
  if index < 0 then none
  else (s.fontAtlases.get? index.toNat).map (fun fa => fa.texture)

/-- A first glyph, filling most of a page. -/
def glyphA : CharInfoM := ⟨65, 40000, -1⟩

/-- A second glyph too big for what the first leaves free on a page, but
small enough for an empty page. -/
def glyphB : CharInfoM := ⟨66, 30000, -1⟩

/-- A concrete `SubFont` after uploading and recording `glyphA`: one page,
cursor `0`. -/
def subFontEx : SubFontM :=
  ((SubFontM.init._uploadCharTexture glyphA)._addCharInfo glyphA).1

end Text2D

namespace TextR

/-- Modelled from the spec: the relevant enum ordinals.  `OverflowMode`:
`Overflow = 0`, `Truncate = 1`; `FontStyle.None = 0`;
`TextHorizontalAlignment` `Left/Center/Right = 0/1/2`;
`TextVerticalAlignment` `Top/Center/Bottom = 0/1/2`;
`SpriteMaskInteraction` `None/VisibleInsideMask/VisibleOutsideMask = 0/1/2`;
`CompareFunction` `Always/LessEqual/Greater` as three distinct codes. -/
def OverflowMode.Overflow : Nat := 0

/-- `OverflowMode.Truncate`. -/
def OverflowMode.Truncate : Nat := 1

/-- `SpriteMaskInteraction.None`. -/
def SpriteMaskInteraction.None : Nat := 0

/-- `SpriteMaskInteraction.VisibleInsideMask`. -/
def SpriteMaskInteraction.VisibleInsideMask : Nat := 1

/-- `CompareFunction.Always` (modelled code). -/
def CompareFunction.Always : Nat := 1

/-- `CompareFunction.LessEqual` (modelled code). -/
def CompareFunction.LessEqual : Nat := 4

/-- `CompareFunction.Greater` (modelled code). -/
def CompareFunction.Greater : Nat := 6

/-- `DirtyFlag.SubFont`. -/
def DirtyFlag.SubFont : Nat := 0x1

/-- `DirtyFlag.LocalPositionBounds`. -/
def DirtyFlag.LocalPositionBounds : Nat := 0x2

/-- `DirtyFlag.WorldPosition`. -/
def DirtyFlag.WorldPosition : Nat := 0x4

/-- `DirtyFlag.WorldBounds`. -/
def DirtyFlag.WorldBounds : Nat := 0x8

/-- `DirtyFlag.MaskInteraction`. -/
def DirtyFlag.MaskInteraction : Nat := 0x10

/-- `DirtyFlag.Position = LocalPositionBounds | WorldPosition | WorldBounds`. -/
def DirtyFlag.Position : Nat :=
  DirtyFlag.LocalPositionBounds ||| DirtyFlag.WorldPosition |||
    DirtyFlag.WorldBounds

/-- `DirtyFlag.Font = SubFont | Position`. -/
def DirtyFlag.Font : Nat := DirtyFlag.SubFont ||| DirtyFlag.Position

/-- The instance material's stencil state, as `_updateStencilState` writes
it. -/
structure StencilM where
  enabled : Bool
  writeMask : Nat
  referenceValue : Nat
  compareFront : Nat
  compareBack : Nat
deriving DecidableEq, Repr

/-- The `TextRenderer` state the modelled methods read and write: the
stored property fields, the dirty-flag word, and the derived pieces
(`_subFont`, `_charRenderDatas` as opaque handles, the stencil state, and
opaque summaries of the local bounds and world positions the update steps
write). -/
structure TRState where
  text : String
  width : ℚ
  height : ℚ
  fontSize : ℚ
  fontStyle : Nat
  lineSpacing : ℚ
  horizontalAlignment : Nat
  verticalAlignment : Nat
  enableWrapping : Bool
  overflowMode : Nat
  maskInteraction : Nat
  maskLayer : Nat
  dirtyFlag : Nat
  charRenderDatas : List Nat
  subFont : Nat
  stencil : StencilM
  localBounds : Nat
  worldPositions : Nat
deriving DecidableEq, Repr

/-- `TextRenderer._isContainDirtyFlag(type)`. -/
def _isContainDirtyFlag (s : TRState) (t : Nat) : Bool :=
  (s.dirtyFlag &&& t) != 0

/-- `TextRenderer._setDirtyFlagTrue(type)`. -/
def _setDirtyFlagTrue (s : TRState) (t : Nat) : TRState :=
  { s with dirtyFlag := s.dirtyFlag ||| t }

/-- `TextRenderer._setDirtyFlagFalse(type)`: JS `&= ~type` on 32-bit
integers; all flag words fit in 32 bits. -/
def _setDirtyFlagFalse (s : TRState) (t : Nat) : TRState :=
  { s with dirtyFlag := s.dirtyFlag &&& (0xffffffff ^^^ t) }

/-- `set text(value)`: `value = value || ""` (so `null`/`undefined` store
the empty string), guarded by `!==` on the stored field. -/
def set_text (s : TRState) (value : Option String) : TRState :=
  let v := value.getD ""
  if s.text ≠ v then _setDirtyFlagTrue { s with text := v } DirtyFlag.Position
  else s

/-- `set width(value)`. -/
def set_width (s : TRState) (value : ℚ) : TRState :=
  if s.width ≠ value then
    _setDirtyFlagTrue { s with width := value } DirtyFlag.Position
  else s

/-- `set height(value)`. -/
def set_height (s : TRState) (value : ℚ) : TRState :=
  if s.height ≠ value then
    _setDirtyFlagTrue { s with height := value } DirtyFlag.Position
  else s

/-- `set fontSize(value)`. -/
def set_fontSize (s : TRState) (value : ℚ) : TRState :=
  if s.fontSize ≠ value then
    _setDirtyFlagTrue { s with fontSize := value } DirtyFlag.Font
  else s

/-- `set fontStyle(value)` (the guard reads the `fontStyle` getter, which
returns the stored field). -/
def set_fontStyle (s : TRState) (value : Nat) : TRState :=
  if s.fontStyle ≠ value then
    _setDirtyFlagTrue { s with fontStyle := value } DirtyFlag.Font
  else s

/-- `set lineSpacing(value)`. -/
def set_lineSpacing (s : TRState) (value : ℚ) : TRState :=
  if s.lineSpacing ≠ value then
    _setDirtyFlagTrue { s with lineSpacing := value } DirtyFlag.Position
  else s

/-- `set horizontalAlignment(value)`. -/
def set_horizontalAlignment (s : TRState) (value : Nat) : TRState :=
  if s.horizontalAlignment ≠ value then
    _setDirtyFlagTrue { s with horizontalAlignment := value }
      DirtyFlag.Position
  else s

/-- `set verticalAlignment(value)`. -/
def set_verticalAlignment (s : TRState) (value : Nat) : TRState :=
  if s.verticalAlignment ≠ value then
    _setDirtyFlagTrue { s with verticalAlignment := value } DirtyFlag.Position
  else s

/-- `set enableWrapping(value)`. -/
def set_enableWrapping (s : TRState) (value : Bool) : TRState :=
  if s.enableWrapping ≠ value then
    _setDirtyFlagTrue { s with enableWrapping := value } DirtyFlag.Position
  else s

/-- `set overflowMode(value)`. -/
def set_overflowMode (s : TRState) (value : Nat) : TRState :=
  if s.overflowMode ≠ value then
    _setDirtyFlagTrue { s with overflowMode := value } DirtyFlag.Position
  else s

/-- `set maskInteraction(value)`. -/
def set_maskInteraction (s : TRState) (value : Nat) : TRState :=
  if s.maskInteraction ≠ value then
    _setDirtyFlagTrue { s with maskInteraction := value }
      DirtyFlag.MaskInteraction
  else s

/-- `set maskLayer(value)`: unconditional store, no dirty flag. -/
def set_maskLayer (s : TRState) (value : Nat) : TRState :=
  { s with maskLayer := value }

/-- The external collaborators `_render`'s update steps call into, as
oracles: `Font._getSubFont` (the engine's font registry), the
`TextUtils`-driven layout of `_updateLocalData` (resulting char render
data and local bounds), and the `transform.worldMatrix`-driven result of
`_updatePosition`. -/
structure TextEnv where
  subFontOf : ℚ → Nat → Nat
  layoutOf : TRState → List Nat
  boundsOf : TRState → Nat
  positionsOf : TRState → Nat

/-- `TextRenderer._updateStencilState()`. -/
def _updateStencilState (s : TRState) : TRState :=
  if s.maskInteraction = SpriteMaskInteraction.None then
    { s with stencil :=
        ⟨false, 0xff, 0, CompareFunction.Always, CompareFunction.Always⟩ }
  else
    let compare :=
      if s.maskInteraction = SpriteMaskInteraction.VisibleInsideMask then
        CompareFunction.LessEqual
      else CompareFunction.Greater
    { s with stencil := ⟨true, 0x00, 1, compare, compare⟩ }

/-- `TextRenderer._resetSubFont()`. -/
def _resetSubFont (env : TextEnv) (s : TRState) : TRState :=
  { s with subFont := env.subFontOf s.fontSize s.fontStyle }

/-- `TextRenderer._updateLocalData()` (layout and bounds from the
environment oracle). -/
def _updateLocalData (env : TextEnv) (s : TRState) : TRState :=
  { s with charRenderDatas := env.layoutOf s, localBounds := env.boundsOf s }

/-- `TextRenderer._updatePosition()` (world positions from the environment
oracle). -/
def _updatePosition (env : TextEnv) (s : TRState) : TRState :=
  { s with worldPositions := env.positionsOf s }

/-- `TextRenderer._render(context)`: the early-out guard, the four
flag-guarded update steps, and the pushed text element (represented by its
char-element list, one entry per char render data). -/
def _render (env : TextEnv) (s : TRState) : TRState × List (List Nat) :=
  if s.text = "" ∨ (s.enableWrapping = true ∧ s.width ≤ 0) ∨
      (s.overflowMode = OverflowMode.Truncate ∧ s.height ≤ 0) then
    (s, [])
  else
    let s1 :=
      if _isContainDirtyFlag s DirtyFlag.MaskInteraction then
        _setDirtyFlagFalse (_updateStencilState s) DirtyFlag.MaskInteraction
      else s
    let s2 :=
      if _isContainDirtyFlag s1 DirtyFlag.SubFont then
        _setDirtyFlagFalse (_resetSubFont env s1) DirtyFlag.SubFont
      else s1
    let s3 :=
      if _isContainDirtyFlag s2 DirtyFlag.LocalPositionBounds then
        _setDirtyFlagFalse (_updateLocalData env s2)
          DirtyFlag.LocalPositionBounds
      else s2
    let s4 :=
      if _isContainDirtyFlag s3 DirtyFlag.WorldPosition then
        _setDirtyFlagFalse (_updatePosition env s3) DirtyFlag.WorldPosition
      else s3
    (s4, [s4.charRenderDatas])

/-- A concrete environment for witnesses. -/
def envEx : TextEnv := ⟨fun _ _ => 7, fun _ => [1, 2], fun _ => 3, fun _ => 4⟩

/-- A renderer state whose text is empty. -/
def trEmptyText : TRState :=
  ⟨"", 1, 1, 24, 0, 0, 1, 1, false, 0, 0, 1, 15, [9], 0,
   ⟨false, 0xff, 0, 1, 1⟩, 0, 0⟩

/-- A renderer state with wrapping enabled and a negative width. -/
def trWrapZeroWidth : TRState :=
  ⟨"hi", -2, 1, 24, 0, 0, 1, 1, true, 0, 0, 1, 15, [9], 0,
   ⟨false, 0xff, 0, 1, 1⟩, 0, 0⟩

/-- A renderer state in Truncate overflow mode with zero height. -/
def trTruncZeroHeight : TRState :=
  ⟨"hi", 5, 0, 24, 0, 0, 1, 1, false, 1, 0, 1, 15, [9], 0,
   ⟨false, 0xff, 0, 1, 1⟩, 0, 0⟩

end TextR

namespace RenderQueue

section SortProofs

variable {T : Type} [Inhabited T]

@[simp] theorem get_nil (n : Nat) : get ([] : List T) n = default := rfl

@[simp] theorem get_cons_zero (x : T) (xs : List T) : get (x :: xs) 0 = x := rfl

@[simp] theorem get_cons_succ (x : T) (xs : List T) (n : Nat) :
    get (x :: xs) (n + 1) = get xs n := rfl

theorem get_set_self {a : List T} {i : Nat} (h : i < a.length) (v : T) :
    get (a.set i v) i = v := by
  induction a generalizing i with
  | nil => simp at h
  | cons x xs ih =>
    cases i with
    | zero => rfl
    | succ n =>
      simp only [List.set_cons_succ, get_cons_succ]
      exact ih (by simpa using h)

theorem get_set_ne {i j : Nat} (hij : i ≠ j) (a : List T) (v : T) :
    get (a.set i v) j = get a j := by
  induction a generalizing i j with
  | nil => simp [List.set]
  | cons x xs ih =>
    cases i with
    | zero =>
      cases j with
      | zero => exact absurd rfl hij
      | succ m => rfl
    | succ n =>
      cases j with
      | zero => rfl
      | succ m =>
        simp only [List.set_cons_succ, get_cons_succ]
        exact ih (i := n) (j := m) (by omega)

theorem cons_coe_set {a : List T} {i : Nat} (h : i < a.length) (v : T) :
    (get a i) ::ₘ ((a.set i v : List T) : Multiset T) = v ::ₘ (a : Multiset T) := by
  induction a generalizing i with
  | nil => simp at h
  | cons x xs ih =>
    cases i with
    | zero =>
      simp only [get_cons_zero, List.set_cons_zero, ← Multiset.cons_coe]
      exact Multiset.cons_swap x v (xs : Multiset T)
    | succ n =>
      have h2 : n < xs.length := by simpa using h
      simp only [get_cons_succ, List.set_cons_succ, ← Multiset.cons_coe]
      rw [Multiset.cons_swap, ih h2, Multiset.cons_swap]

theorem coe_swap {a : List T} {i j : Nat} (hi : i < a.length) (hj : j < a.length)
    (hij : i ≠ j) :
    (((a.set i (get a j)).set j (get a i) : List T) : Multiset T) = (a : Multiset T) := by
  have h1 := cons_coe_set hi (get a j)
  have hj2 : j < (a.set i (get a j)).length := by simpa using hj
  have h2 := cons_coe_set hj2 (get a i)
  rw [get_set_ne hij] at h2
  rw [h1] at h2
  exact (Multiset.cons_inj_right _).mp h2

theorem adjSorted_mono {cmp : T → T → Int} {a : List T} {lo hi hi2 : Nat}
    (h : adjSorted cmp a lo hi) (hh : hi2 ≤ hi) : adjSorted cmp a lo hi2 :=
  fun k hk hk2 => h k hk (by omega)

theorem adjSorted_congr {cmp : T → T → Int} {a b : List T} {lo hi : Nat}
    (h : adjSorted cmp a lo hi) (heq : ∀ k, lo ≤ k → k < hi → get b k = get a k) :
    adjSorted cmp b lo hi := by
  intro k hk hk2
  rw [heq k hk (by omega), heq (k + 1) (by omega) hk2]
  exact h k hk hk2

theorem adjSorted_vacuous {cmp : T → T → Int} {a : List T} {lo hi : Nat}
    (h : hi ≤ lo + 1) : adjSorted cmp a lo hi :=
  fun _ hk hk2 => absurd (by omega : hi ≤ hi) (by omega)

/-- Full specification of the inner loop of `_insertionSort`: inserting
`element` into the sorted run below the hole at index `from_ + fuel` yields a
sorted range, touches nothing outside `[from_, from_ + fuel]`, and replaces
the hole's content by `element` (multiset view). -/
theorem insertLoopF_spec (cmp : T → T → Int)
    (hA : ∀ x y : T, cmp x y = - cmp y x)
    (element : T) (from_ hi : Nat) :
    ∀ (fuel : Nat) (a : List T) (j : Nat),
    (fuel ≠ 0 → j + 1 = from_ + fuel) →
    hi ≤ a.length →
    from_ + fuel + 1 ≤ hi →
    adjSorted cmp a from_ (from_ + fuel) →
    adjSorted cmp a (from_ + fuel + 1) hi →
    (∀ k, from_ + fuel + 1 ≤ k → k < hi → cmp element (get a k) ≤ 0) →
    (from_ + fuel + 1 < hi → fuel ≠ 0 →
      cmp (get a (from_ + fuel - 1)) (get a (from_ + fuel + 1)) ≤ 0) →
    adjSorted cmp (insertLoopF cmp element from_ fuel a j) from_ hi ∧
    (insertLoopF cmp element from_ fuel a j).length = a.length ∧
    (∀ k, k < from_ ∨ from_ + fuel < k →
      get (insertLoopF cmp element from_ fuel a j) k = get a k) ∧
    (get a (from_ + fuel)) ::ₘ ((insertLoopF cmp element from_ fuel a j : List T) : Multiset T) =
      element ::ₘ (a : Multiset T) := by
  intro fuel
  induction fuel with
  | zero =>
    intro a j _ hlen hhi _ htail hle _
    have hfl : from_ < a.length := by omega
    refine ⟨?_, by simp [insertLoopF], ?_, ?_⟩
    · intro k hk hk2
      rcases (by omega : k = from_ ∨ from_ + 1 ≤ k) with hk3 | hk3
      · rw [hk3]
        rw [insertLoopF, get_set_self hfl, get_set_ne (by omega)]
        exact hle (from_ + 1) (by omega) (by omega)
      · rw [insertLoopF, get_set_ne (by omega), get_set_ne (by omega)]
        exact htail k (by omega) hk2
    · intro k hk
      rw [insertLoopF, get_set_ne (by omega)]
    · simpa [insertLoopF] using cons_coe_set hfl element
  | succ fuel ih =>
    intro a j hj hlen hhi hpre htail hle hacross
    have hj2 : j = from_ + fuel := by omega
    subst hj2
    have hjlen : from_ + fuel + 1 < a.length := by omega
    rw [insertLoopF]
    by_cases hord : cmp (get a (from_ + fuel)) element > 0
    · rw [if_pos hord]
      have hflip : cmp element (get a (from_ + fuel)) < 0 := by
        have := hA element (get a (from_ + fuel)); omega
      set a2 : List T := a.set (from_ + fuel + 1) (get a (from_ + fuel)) with ha2
      have hget2 : ∀ k, k ≠ from_ + fuel + 1 → get a2 k = get a k := by
        intro k hk; rw [ha2, get_set_ne (by omega)]
      have hself2 : get a2 (from_ + fuel + 1) = get a (from_ + fuel) := by
        rw [ha2]; exact get_set_self hjlen _
      have hlen2 : a2.length = a.length := by simp [ha2]
      obtain ⟨ihS, ihL, ihO, ihM⟩ := ih a2 (from_ + fuel - 1)
        (by omega)
        (by omega)
        (by omega)
        (by
          intro k hk hk2
          rw [hget2 k (by omega), hget2 (k + 1) (by omega)]
          exact hpre k hk (by omega))
        (by
          intro k hk hk2
          rcases (by omega : k = from_ + fuel + 1 ∨ from_ + fuel + 2 ≤ k) with h3 | h3
          · subst h3
            rw [hself2, hget2 _ (by omega)]
            exact hacross (by omega) (by omega)
          · rw [hget2 k (by omega), hget2 (k + 1) (by omega)]
            exact htail k (by omega) hk2)
        (by
          intro k hk hk2
          rcases (by omega : k = from_ + fuel + 1 ∨ from_ + fuel + 2 ≤ k) with h3 | h3
          · subst h3; rw [hself2]; omega
          · rw [hget2 k (by omega)]
            exact hle k (by omega) hk2)
        (by
          intro h1 h2
          rw [hget2 _ (by omega), hself2]
          have hp := hpre (from_ + fuel - 1) (by omega) (by omega)
          have heq : from_ + fuel - 1 + 1 = from_ + fuel := by omega
          rw [heq] at hp
          exact hp)
      refine ⟨ihS, by omega, ?_, ?_⟩
      · intro k hk
        rw [ihO k (by omega), hget2 k (by omega)]
      · have hmid : get a2 (from_ + fuel) = get a (from_ + fuel) :=
          hget2 _ (by omega)
        rw [hmid] at ihM
        have hstep : (get a (from_ + fuel + 1)) ::ₘ ((a2 : List T) : Multiset T) =
            (get a (from_ + fuel)) ::ₘ (a : Multiset T) :=
          cons_coe_set hjlen _
        have := congrArg (fun s => (get a (from_ + fuel + 1)) ::ₘ s) ihM
        simp only at this
        rw [Multiset.cons_swap (get a (from_ + fuel + 1)) element] at this
        rw [hstep] at this
        rw [Multiset.cons_swap (get a (from_ + fuel + 1)) (get a (from_ + fuel))] at this
        rw [Multiset.cons_swap element (get a (from_ + fuel))] at this
        exact (Multiset.cons_inj_right _).mp this
    · rw [if_neg hord]
      have hord2 : cmp (get a (from_ + fuel)) element ≤ 0 := by omega
      refine ⟨?_, by simp, ?_, ?_⟩
      · intro k hk hk2
        rcases (by omega : k + 1 < from_ + fuel + 1 ∨ k = from_ + fuel ∨
            k = from_ + fuel + 1 ∨ from_ + fuel + 2 ≤ k) with h3 | h3 | h3 | h3
        · rw [get_set_ne (by omega), get_set_ne (by omega)]
          exact hpre k hk (by omega)
        · subst h3
          rw [get_set_ne (by omega), get_set_self hjlen]
          exact hord2
        · subst h3
          rw [get_set_self hjlen, get_set_ne (by omega)]
          exact hle (from_ + fuel + 2) (by omega) (by omega)
        · rw [get_set_ne (by omega), get_set_ne (by omega)]
          exact htail k (by omega) hk2
      · intro k hk
        rw [get_set_ne (by omega)]
      · exact cons_coe_set hjlen element

/-- Specification of the outer loop of `_insertionSort`. -/
theorem insSortLoopF_spec (cmp : T → T → Int)
    (hA : ∀ x y : T, cmp x y = - cmp y x)
    (from_ to_ : Nat) :
    ∀ (fuel : Nat) (a : List T) (i : Nat),
    fuel = to_ - i →
    from_ + 1 ≤ i →
    to_ ≤ a.length →
    adjSorted cmp a from_ i →
    adjSorted cmp (insSortLoopF cmp from_ fuel a i) from_ to_ ∧
    (insSortLoopF cmp from_ fuel a i).length = a.length ∧
    (∀ k, k < from_ ∨ to_ ≤ k → get (insSortLoopF cmp from_ fuel a i) k = get a k) ∧
    ((insSortLoopF cmp from_ fuel a i : List T) : Multiset T) = (a : Multiset T) := by
  intro fuel
  induction fuel with
  | zero =>
    intro a i hfuel hi hlen hsort
    exact ⟨adjSorted_mono hsort (by omega), rfl, fun k _ => rfl, rfl⟩
  | succ fuel ih =>
    intro a i hfuel hi hlen hsort
    have hito : i < to_ := by omega
    have hif : from_ + (i - from_) = i := by omega
    rw [insSortLoopF]
    obtain ⟨S1, L1, O1, M1⟩ := insertLoopF_spec cmp hA (get a i) from_ (i + 1)
      (i - from_) a (i - 1)
      (fun _ => by omega)
      (by omega)
      (by omega)
      (by rw [hif]; exact adjSorted_mono hsort (le_refl _))
      (adjSorted_vacuous (by omega))
      (fun k hk hk2 => absurd hk2 (by omega))
      (fun h1 _ => absurd h1 (by omega))
    rw [hif] at O1 M1
    have M1b : ((insertLoopF cmp (get a i) from_ (i - from_) a (i - 1) : List T) : Multiset T) =
        (a : Multiset T) := (Multiset.cons_inj_right _).mp M1
    obtain ⟨S2, L2, O2, M2⟩ := ih (insertLoopF cmp (get a i) from_ (i - from_) a (i - 1))
      (i + 1) (by omega) (by omega) (by omega) S1
    refine ⟨S2, by omega, ?_, M2.trans M1b⟩
    intro k hk
    rw [O2 k hk, O1 k (by omega)]

/-- Specification of `RenderQueue._insertionSort`: the range `[from_, to_)`
becomes sorted, nothing outside it changes, and the whole list is permuted. -/
theorem _insertionSort_spec (cmp : T → T → Int)
    (hA : ∀ x y : T, cmp x y = - cmp y x)
    (a : List T) (from_ to_ : Nat) (hlen : to_ ≤ a.length) :
    adjSorted cmp (_insertionSort cmp a from_ to_) from_ to_ ∧
    (_insertionSort cmp a from_ to_).length = a.length ∧
    (∀ k, k < from_ ∨ to_ ≤ k → get (_insertionSort cmp a from_ to_) k = get a k) ∧
    ((_insertionSort cmp a from_ to_ : List T) : Multiset T) = (a : Multiset T) :=
  insSortLoopF_spec cmp hA from_ to_ (to_ - (from_ + 1)) a (from_ + 1) rfl
    (le_refl _) hlen (adjSorted_vacuous (by omega))

/-- Specification of the downward scan inside the partition loop: on
`break partition` (`none`) everything strictly between `i` and `high_start`
compares greater than the pivot; on `some (hs, o)` the scan stopped at
`hs ∈ (i, high_start)` with comparison result `o ≤ 0` and everything above
`hs` (up to `high_start`) greater than the pivot. -/
theorem doScanF_spec (cmp : T → T → Int) (pivot : T) (a : List T) :
    ∀ (fuel : Nat) (i high_start : Nat),
    fuel = high_start - i →
    i < high_start →
    (doScanF cmp pivot a i fuel high_start = none →
      ∀ k, i < k → k < high_start → cmp (get a k) pivot > 0) ∧
    (∀ hs o, doScanF cmp pivot a i fuel high_start = some (hs, o) →
      i < hs ∧ hs < high_start ∧ o = cmp (get a hs) pivot ∧ ¬(o > 0) ∧
      ∀ k, hs < k → k < high_start → cmp (get a k) pivot > 0) := by
  intro fuel
  induction fuel with
  | zero => intro i high_start hfuel hig; omega
  | succ fuel ih =>
    intro i high_start hfuel hig
    rw [doScanF]
    by_cases hhs : high_start - 1 = i
    · rw [if_pos hhs]
      exact ⟨fun _ k hk hk2 => absurd hk (by omega), fun hs o h => by simp at h⟩
    · rw [if_neg hhs]
      have hgt : i < high_start - 1 := by omega
      by_cases hord : cmp (get a (high_start - 1)) pivot > 0
      · rw [if_pos hord]
        obtain ⟨ihn, ihs⟩ := ih i (high_start - 1) (by omega) hgt
        constructor
        · intro hnone k hk hk2
          rcases (by omega : k = high_start - 1 ∨ k < high_start - 1) with h | h
          · rw [h]; exact hord
          · exact ihn hnone k hk h
        · intro hs o hsome
          obtain ⟨s1, s2, s3, s4, s5⟩ := ihs hs o hsome
          refine ⟨s1, by omega, s3, s4, ?_⟩
          intro k hk hk2
          rcases (by omega : k = high_start - 1 ∨ k < high_start - 1) with h | h
          · rw [h]; exact hord
          · exact s5 k hk h
      · rw [if_neg hord]
        constructor
        · intro h; simp at h
        · intro hs o hsome
          simp only [Option.some.injEq, Prod.mk.injEq] at hsome
          obtain ⟨rfl, rfl⟩ := hsome
          exact ⟨hgt, by omega, rfl, hord, fun k hk hk2 => absurd hk (by omega)⟩

/-- Full specification of the `partition:` loop, by induction over the fuel.
Given the three region invariants (strictly-less below `le`, pivot-equal on
`[le, i)`, strictly-greater on `[hs, H0)`), the loop returns bounds
`le ≤ le2 < hs2 ≤ hs`, permutes the list without touching anything outside
`[le, hs)`, and establishes the three regions relative to `le2`/`hs2`. -/
theorem partitionLoopF_spec (cmp : T → T → Int) (pivot : T) (L0 H0 : Nat) :
    ∀ (fuel : Nat) (a : List T) (le hs i : Nat) (b : List T) (le2 hs2 : Nat),
    partitionLoopF cmp pivot fuel a le hs i = (b, le2, hs2) →
    hs - i ≤ fuel →
    L0 ≤ le → le < i → i ≤ hs → hs ≤ H0 → H0 ≤ a.length →
    (∀ k, L0 ≤ k → k < le → cmp (get a k) pivot < 0) →
    (∀ k, le ≤ k → k < i → cmp (get a k) pivot = 0) →
    (∀ k, hs ≤ k → k < H0 → cmp (get a k) pivot > 0) →
    le ≤ le2 ∧ le2 < hs2 ∧ hs2 ≤ hs ∧
    b.length = a.length ∧
    (∀ k, k < le ∨ hs ≤ k → get b k = get a k) ∧
    ((b : List T) : Multiset T) = (a : Multiset T) ∧
    (∀ k, L0 ≤ k → k < le2 → cmp (get b k) pivot < 0) ∧
    (∀ k, le2 ≤ k → k < hs2 → cmp (get b k) pivot = 0) ∧
    (∀ k, hs2 ≤ k → k < H0 → cmp (get b k) pivot > 0) := by
  intro fuel
  induction fuel with
  | zero =>
    intro a le hs i b le2 hs2 heq hfuel h1 h2 h3 h4 h5 hA hB hC
    rw [partitionLoopF] at heq
    simp only [Prod.mk.injEq] at heq
    obtain ⟨rfl, rfl, rfl⟩ := heq
    exact ⟨le_refl _, by omega, le_refl _, rfl, fun k _ => rfl, rfl, hA,
      fun k hk hk2 => hB k hk (by omega), hC⟩
  | succ fuel ih =>
    intro a le hs i b le2 hs2 heq hfuel h1 h2 h3 h4 h5 hA hB hC
    rw [partitionLoopF] at heq
    by_cases hexit : i ≥ hs
    · rw [if_pos hexit] at heq
      simp only [Prod.mk.injEq] at heq
      obtain ⟨rfl, rfl, rfl⟩ := heq
      exact ⟨le_refl _, by omega, le_refl _, rfl, fun k _ => rfl, rfl, hA,
        fun k hk hk2 => hB k hk (by omega), hC⟩
    · rw [if_neg hexit] at heq
      have hihs : i < hs := by omega
      have hilen : i < a.length := by omega
      have hlelen : le < a.length := by omega
      by_cases hlt : cmp (get a i) pivot < 0
      · rw [if_pos hlt] at heq
        have hg_i : get ((a.set i (get a le)).set le (get a i)) i = get a le := by
          rw [get_set_ne (by omega), get_set_self hilen]
        have hg_le : get ((a.set i (get a le)).set le (get a i)) le = get a i := by
          rw [get_set_self (by simpa using hlelen)]
        have hg_o : ∀ k, k ≠ i → k ≠ le →
            get ((a.set i (get a le)).set le (get a i)) k = get a k := by
          intro k hk1 hk2
          rw [get_set_ne (by omega), get_set_ne (by omega)]
        obtain ⟨c1, c2, c3, c4, c5, c6, c7, c8, c9⟩ :=
          ih _ (le + 1) hs (i + 1) b le2 hs2 heq (by omega) (by omega) (by omega)
            (by omega) h4 (by simpa using h5)
            (by
              intro k hk hk2
              rcases (by omega : k = le ∨ k < le) with h | h
              · rw [h, hg_le]; exact hlt
              · rw [hg_o k (by omega) (by omega)]; exact hA k hk h)
            (by
              intro k hk hk2
              rcases (by omega : k = i ∨ k < i) with h | h
              · rw [h, hg_i]; exact hB le (le_refl _) (by omega)
              · rw [hg_o k (by omega) (by omega)]; exact hB k (by omega) h)
            (by
              intro k hk hk2
              rw [hg_o k (by omega) (by omega)]; exact hC k hk hk2)
        refine ⟨by omega, c2, c3, by simpa using c4, ?_, ?_, c7, c8, c9⟩
        · intro k hk
          rw [c5 k (by omega), hg_o k (by omega) (by omega)]
        · rw [c6]; exact coe_swap hilen hlelen (by omega)
      · by_cases hgt : cmp (get a i) pivot > 0
        · rw [if_neg hlt, if_pos hgt] at heq
          obtain ⟨scanNone, scanSome⟩ := doScanF_spec cmp pivot a (hs - i) i hs rfl hihs
          rcases hdo : doScanF cmp pivot a i (hs - i) hs with _ | ⟨hs3, o2⟩
          · simp only [hdo] at heq
            simp only [Prod.mk.injEq] at heq
            obtain ⟨rfl, rfl, rfl⟩ := heq
            refine ⟨le_refl _, h2, by omega, rfl, fun k _ => rfl, rfl, hA,
              fun k hk hk2 => hB k hk hk2, ?_⟩
            intro k hk hk2
            rcases (by omega : k = i ∨ (i < k ∧ k < hs) ∨ hs ≤ k) with h | h | h
            · rw [h]; exact hgt
            · exact scanNone hdo k h.1 h.2
            · exact hC k h hk2
          · simp only [hdo] at heq
            obtain ⟨s1, s2, s3, s4, s5⟩ := scanSome hs3 o2 hdo
            have hs3len : hs3 < a.length := by omega
            have hg3_i : get ((a.set i (get a hs3)).set hs3 (get a i)) i = get a hs3 := by
              rw [get_set_ne (by omega), get_set_self hilen]
            have hg3_hs : get ((a.set i (get a hs3)).set hs3 (get a i)) hs3 = get a i := by
              rw [get_set_self (by simpa using hs3len)]
            have hg3_o : ∀ k, k ≠ i → k ≠ hs3 →
                get ((a.set i (get a hs3)).set hs3 (get a i)) k = get a k := by
              intro k hk1 hk2
              rw [get_set_ne (by omega), get_set_ne (by omega)]
            have hms3 : (((a.set i (get a hs3)).set hs3 (get a i) : List T) : Multiset T) =
                (a : Multiset T) := coe_swap hilen hs3len (by omega)
            by_cases ho2 : o2 < 0
            · rw [if_pos ho2] at heq
              set a3 := (a.set i (get a hs3)).set hs3 (get a i) with ha3
              have hg4_i : get ((a3.set i (get a3 le)).set le (get a3 i)) i = get a3 le := by
                rw [get_set_ne (by omega), get_set_self (by rw [ha3]; simpa using hilen)]
              have hg4_le : get ((a3.set i (get a3 le)).set le (get a3 i)) le = get a3 i := by
                rw [get_set_self (by rw [ha3]; simpa using hlelen)]
              have hg4_o : ∀ k, k ≠ i → k ≠ le →
                  get ((a3.set i (get a3 le)).set le (get a3 i)) k = get a3 k := by
                intro k hk1 hk2
                rw [get_set_ne (by omega), get_set_ne (by omega)]
              obtain ⟨c1, c2, c3, c4, c5, c6, c7, c8, c9⟩ :=
                ih _ (le + 1) hs3 (i + 1) b le2 hs2 heq (by omega) (by omega) (by omega)
                  (by omega) (by omega) (by rw [ha3]; simpa using h5)
                  (by
                    intro k hk hk2
                    rcases (by omega : k = le ∨ k < le) with h | h
                    · rw [h, hg4_le, hg3_i]
                      have : o2 = cmp (get a hs3) pivot := s3
                      omega
                    · rw [hg4_o k (by omega) (by omega), hg3_o k (by omega) (by omega)]
                      exact hA k hk h)
                  (by
                    intro k hk hk2
                    rcases (by omega : k = i ∨ k < i) with h | h
                    · rw [h, hg4_i, hg3_o le (by omega) (by omega)]
                      exact hB le (le_refl _) (by omega)
                    · rw [hg4_o k (by omega) (by omega), hg3_o k (by omega) (by omega)]
                      exact hB k (by omega) h)
                  (by
                    intro k hk hk2
                    rcases (by omega : k = hs3 ∨ (hs3 < k ∧ k < hs) ∨ hs ≤ k) with h | h | h
                    · rw [h, hg4_o hs3 (by omega) (by omega), hg3_hs]; exact hgt
                    · rw [hg4_o k (by omega) (by omega), hg3_o k (by omega) (by omega)]
                      exact s5 k h.1 h.2
                    · rw [hg4_o k (by omega) (by omega), hg3_o k (by omega) (by omega)]
                      exact hC k h hk2)
              refine ⟨by omega, c2, by omega, ?_, ?_, ?_, c7, c8, c9⟩
              · rw [c4, ha3]; simp
              · intro k hk
                rw [c5 k (by omega), hg4_o k (by omega) (by omega),
                  hg3_o k (by omega) (by omega)]
              · rw [c6]
                have : ((a3.set i (get a3 le)).set le (get a3 i) : List T) =
                    (a3.set i (get a3 le)).set le (get a3 i) := rfl
                calc (((a3.set i (get a3 le)).set le (get a3 i) : List T) : Multiset T)
                    = (a3 : Multiset T) := coe_swap (by rw [ha3]; simpa using hilen)
                      (by rw [ha3]; simpa using hlelen) (by omega)
                  _ = (a : Multiset T) := hms3
            · rw [if_neg ho2] at heq
              obtain ⟨c1, c2, c3, c4, c5, c6, c7, c8, c9⟩ :=
                ih _ le hs3 (i + 1) b le2 hs2 heq (by omega) h1 (by omega)
                  (by omega) (by omega) (by simpa using h5)
                  (by
                    intro k hk hk2
                    rw [hg3_o k (by omega) (by omega)]
                    exact hA k hk hk2)
                  (by
                    intro k hk hk2
                    rcases (by omega : k = i ∨ k < i) with h | h
                    · rw [h, hg3_i]
                      have : o2 = cmp (get a hs3) pivot := s3
                      omega
                    · rw [hg3_o k (by omega) (by omega)]; exact hB k hk h)
                  (by
                    intro k hk hk2
                    rcases (by omega : k = hs3 ∨ (hs3 < k ∧ k < hs) ∨ hs ≤ k) with h | h | h
                    · rw [h, hg3_hs]; exact hgt
                    · rw [hg3_o k (by omega) (by omega)]; exact s5 k h.1 h.2
                    · rw [hg3_o k (by omega) (by omega)]; exact hC k h hk2)
              refine ⟨c1, c2, by omega, by simpa using c4, ?_, c6.trans hms3, c7, c8, c9⟩
              intro k hk
              rw [c5 k (by omega), hg3_o k (by omega) (by omega)]
        · have hz : cmp (get a i) pivot = 0 := by omega
          rw [if_neg hlt, if_neg hgt] at heq
          obtain ⟨c1, c2, c3, c4, c5, c6, c7, c8, c9⟩ :=
            ih a le hs (i + 1) b le2 hs2 heq (by omega) h1 (by omega) (by omega) h4 h5 hA
              (by
                intro k hk hk2
                rcases (by omega : k = i ∨ k < i) with h | h
                · rw [h]; exact hz
                · exact hB k hk h)
              hC
          exact ⟨c1, c2, c3, c4, fun k hk => c5 k hk, c6, c7, c8, c9⟩

theorem eq_of_get {b c : List T} (hlen : b.length = c.length)
    (h : ∀ k, get b k = get c k) : b = c := by
  induction b generalizing c with
  | nil => cases c with
    | nil => rfl
    | cons y ys => simp at hlen
  | cons x xs ih =>
    cases c with
    | nil => simp at hlen
    | cons y ys =>
      have hx : x = y := h 0
      have : xs = ys := ih (by simpa using hlen) (fun k => h (k + 1))
      rw [hx, this]

theorem get_drop (n : Nat) (a : List T) (k : Nat) :
    get (a.drop n) k = get a (n + k) := by
  induction n generalizing a with
  | zero => simp
  | succ m ih =>
    cases a with
    | nil => simp [get]
    | cons x xs =>
      rw [List.drop_succ_cons, ih xs]
      have : m + 1 + k = (m + k) + 1 := by omega
      rw [this, get_cons_succ]

theorem get_take {m : Nat} (a : List T) {k : Nat} (hk : k < m) :
    get (a.take m) k = get a k := by
  induction a generalizing m k with
  | nil => simp
  | cons x xs ih =>
    cases m with
    | zero => omega
    | succ m2 =>
      cases k with
      | zero => rfl
      | succ k2 =>
        rw [List.take_succ_cons, get_cons_succ, get_cons_succ]
        exact ih (by omega)

theorem getD_mem {a : List T} {n : Nat} (h : n < a.length) (d : T) :
    a.getD n d ∈ a := by
  induction a generalizing n with
  | nil => simp at h
  | cons x xs ih =>
    cases n with
    | zero => simp [List.getD]
    | succ m =>
      rw [List.getD_cons_succ]
      exact List.mem_cons_of_mem x (ih (by simpa using h))

theorem take_eq_of_get {b c : List T} (lo : Nat) (hlen : b.length = c.length)
    (h : ∀ k, k < lo → get b k = get c k) : b.take lo = c.take lo := by
  apply eq_of_get
  · simp [hlen]
  · intro k
    by_cases hk : k < lo
    · rw [get_take b hk, get_take c hk]
      exact h k hk
    · have h1 : (b.take lo).getD k default = default := by
        apply List.getD_eq_default
        simp; omega
      have h2 : (c.take lo).getD k default = default := by
        apply List.getD_eq_default
        simp; omega
      show (b.take lo).getD k default = (c.take lo).getD k default
      rw [h1, h2]

theorem drop_eq_of_get {b c : List T} (hi : Nat) (hlen : b.length = c.length)
    (h : ∀ k, hi ≤ k → get b k = get c k) : b.drop hi = c.drop hi := by
  apply eq_of_get
  · simp [hlen]
  · intro k
    rw [get_drop, get_drop]
    exact h (hi + k) (by omega)

/-- Transfer a pointwise property over the range `[lo, hi)` from `c` to a
list `b` that is a permutation of `c` agreeing with `c` outside `[lo, hi)`:
the segment of `b` is then a permutation of the segment of `c`, so every
value `b` holds inside the range occurs inside the range of `c`. -/
theorem seg_transfer {b c : List T} {lo hi : Nat}
    (hlen : b.length = c.length) (hhi : hi ≤ c.length)
    (hms : (b : Multiset T) = (c : Multiset T))
    (hout : ∀ k, k < lo ∨ hi ≤ k → get b k = get c k)
    (P : T → Prop) (hP : ∀ k, lo ≤ k → k < hi → P (get c k)) :
    ∀ k, lo ≤ k → k < hi → P (get b k) := by
  intro k hk hk2
  have hlenb : hi ≤ b.length := by omega
  have htake : b.take lo = c.take lo :=
    take_eq_of_get lo hlen (fun k2 hk2 => hout k2 (Or.inl hk2))
  have hdrop : b.drop hi = c.drop hi :=
    drop_eq_of_get hi hlen (fun k2 hk2 => hout k2 (Or.inr hk2))
  have hdec : ∀ l : List T, hi ≤ l.length →
      l.take lo ++ ((l.drop lo).take (hi - lo) ++ l.drop hi) = l := by
    intro l hl
    have h2 : (l.drop lo).drop (hi - lo) = l.drop hi := by
      rw [List.drop_drop]
      congr 1
      omega
    rw [← h2, List.take_append_drop, List.take_append_drop]
  have hmsseg : (((b.drop lo).take (hi - lo) : List T) : Multiset T) =
      (((c.drop lo).take (hi - lo) : List T) : Multiset T) := by
    have hsum : ((b.take lo : List T) : Multiset T) +
        ((((b.drop lo).take (hi - lo) : List T) : Multiset T) +
          ((b.drop hi : List T) : Multiset T)) =
        ((c.take lo : List T) : Multiset T) +
        ((((c.drop lo).take (hi - lo) : List T) : Multiset T) +
          ((c.drop hi : List T) : Multiset T)) := by
      rw [Multiset.coe_add, Multiset.coe_add, Multiset.coe_add, Multiset.coe_add,
        hdec b hlenb, hdec c hhi]
      exact hms
    rw [htake, hdrop] at hsum
    exact add_right_cancel (add_left_cancel hsum)
  have hseglen : ((b.drop lo).take (hi - lo)).length = hi - lo := by
    rw [List.length_take, List.length_drop]
    omega
  have hxs : get b k ∈ (b.drop lo).take (hi - lo) := by
    have hkl : k - lo < hi - lo := by omega
    have hgb : get ((b.drop lo).take (hi - lo)) (k - lo) = get b k := by
      rw [get_take _ hkl, get_drop]
      congr 1
      omega
    rw [← hgb]
    exact getD_mem (by omega) default
  have hxc : get b k ∈ (c.drop lo).take (hi - lo) := by
    have h1 : get b k ∈ (((b.drop lo).take (hi - lo) : List T) : Multiset T) :=
      Multiset.mem_coe.mpr hxs
    rw [hmsseg] at h1
    exact Multiset.mem_coe.mp h1
  obtain ⟨n, hget⟩ := List.mem_iff_get.mp hxc
  have hseglenc : ((c.drop lo).take (hi - lo)).length = hi - lo := by
    rw [List.length_take, List.length_drop]
    omega
  have hnv : (n : Nat) < hi - lo := by
    have := n.isLt
    omega
  have hgc : get ((c.drop lo).take (hi - lo)) (n : Nat) = get c (lo + (n : Nat)) := by
    rw [get_take _ hnv, get_drop]
  have hgetD : ((c.drop lo).take (hi - lo)).get n =
      get ((c.drop lo).take (hi - lo)) (n : Nat) := by
    unfold get
    rw [List.getD_eq_get _ _ n.isLt]
  have : get b k = get c (lo + (n : Nat)) := by
    rw [← hget, hgetD, hgc]
  rw [this]
  exact hP (lo + (n : Nat)) (by omega) (by omega)

theorem cmp_refl {cmp : T → T → Int} (hA : ∀ x y : T, cmp x y = - cmp y x)
    (x : T) : cmp x x = 0 := by
  have := hA x x; omega

theorem cons3_congr {p q r p2 q2 r2 : T}
    (h : p ::ₘ q ::ₘ r ::ₘ (0 : Multiset T) = p2 ::ₘ q2 ::ₘ r2 ::ₘ 0)
    (s : Multiset T) : p ::ₘ q ::ₘ r ::ₘ s = p2 ::ₘ q2 ::ₘ r2 ::ₘ s := by
  have h1 : p ::ₘ q ::ₘ r ::ₘ s = (p ::ₘ q ::ₘ r ::ₘ 0) + s := by
    simp [Multiset.cons_add]
  rw [h1, h]
  simp [Multiset.cons_add]

/-- The three-way sort of the pivot candidates is correct: the result is
ordered (`v0 ≤ v1 ≤ v2` in comparator terms) and is a rearrangement of the
inputs. -/
theorem medianOfThree_spec (cmp : T → T → Int)
    (hA : ∀ x y : T, cmp x y = - cmp y x) (x0 x1 x2 : T) :
    cmp (medianOfThree cmp x0 x1 x2).1 (medianOfThree cmp x0 x1 x2).2.1 ≤ 0 ∧
    cmp (medianOfThree cmp x0 x1 x2).2.1 (medianOfThree cmp x0 x1 x2).2.2 ≤ 0 ∧
    ((medianOfThree cmp x0 x1 x2).1 ::ₘ (medianOfThree cmp x0 x1 x2).2.1 ::ₘ
      (medianOfThree cmp x0 x1 x2).2.2 ::ₘ 0) =
      (x0 ::ₘ x1 ::ₘ x2 ::ₘ (0 : Multiset T)) := by
  unfold medianOfThree
  dsimp only
  by_cases h01 : cmp x0 x1 > 0
  · rw [if_pos h01]
    dsimp only
    by_cases h02 : cmp x1 x2 ≥ 0
    · rw [if_pos h02]
      dsimp only
      refine ⟨by have := hA x2 x1; omega, by have := hA x1 x0; omega, ?_⟩
      rw [Multiset.cons_swap x2 x1, Multiset.cons_swap x2 x0, Multiset.cons_swap x1 x0]
    · rw [if_neg h02]
      by_cases h12 : cmp x0 x2 > 0
      · rw [if_pos h12]
        dsimp only
        refine ⟨by omega, by have := hA x2 x0; omega, ?_⟩
        rw [Multiset.cons_swap x2 x0, Multiset.cons_swap x1 x0]
      · rw [if_neg h12]
        dsimp only
        refine ⟨by have := hA x1 x0; omega, by omega, ?_⟩
        rw [Multiset.cons_swap x1 x0]
  · rw [if_neg h01]
    dsimp only
    by_cases h02 : cmp x0 x2 ≥ 0
    · rw [if_pos h02]
      dsimp only
      refine ⟨by have := hA x2 x0; omega, by omega, ?_⟩
      rw [Multiset.cons_swap x2 x0, Multiset.cons_swap x2 x1]
    · rw [if_neg h02]
      by_cases h12 : cmp x1 x2 > 0
      · rw [if_pos h12]
        dsimp only
        refine ⟨by omega, by have := hA x2 x1; omega, ?_⟩
        rw [Multiset.cons_swap x2 x1]
      · rw [if_neg h12]
        dsimp only
        exact ⟨by omega, by omega, rfl⟩

/-- Correctness of the pre-partition array setup: only `[from_, to_)` is
touched, the contents are merely rearranged, the pivot sits at `from_ + 1`,
and the sentinels at `from_` / `to_ - 1` compare at most / at least the
pivot. -/
theorem setupPartition_spec (cmp : T → T → Int)
    (hA : ∀ x y : T, cmp x y = - cmp y x)
    (a : List T) (from_ to_ : Nat)
    (h11 : 11 ≤ to_ - from_) (hlen : to_ ≤ a.length) :
    (setupPartition cmp a from_ to_).1.length = a.length ∧
    (((setupPartition cmp a from_ to_).1 : List T) : Multiset T) = (a : Multiset T) ∧
    (∀ k, k < from_ ∨ to_ ≤ k → get (setupPartition cmp a from_ to_).1 k = get a k) ∧
    cmp (get (setupPartition cmp a from_ to_).1 from_) (setupPartition cmp a from_ to_).2 ≤ 0 ∧
    cmp (setupPartition cmp a from_ to_).2 (get (setupPartition cmp a from_ to_).1 (to_ - 1)) ≤ 0 ∧
    get (setupPartition cmp a from_ to_).1 (from_ + 1) = (setupPartition cmp a from_ to_).2 := by
  have hthird1 : from_ + 2 ≤ (from_ + to_) / 2 := by omega
  have hthird2 : (from_ + to_) / 2 ≤ to_ - 2 := by omega
  obtain ⟨m1ord, m2ord, mms⟩ := medianOfThree_spec cmp hA
    (get a from_) (get a (to_ - 1)) (get a ((from_ + to_) / 2))
  unfold setupPartition
  set third := (from_ + to_) / 2 with hthird
  set m := medianOfThree cmp (get a from_) (get a (to_ - 1)) (get a third) with hm
  set a1 : List T := a.set from_ m.1 with ha1
  set a2 : List T := a1.set (to_ - 1) m.2.2 with ha2
  set a3 : List T := a2.set third (get a2 (from_ + 1)) with ha3
  set a4 : List T := a3.set (from_ + 1) m.2.1 with ha4
  have hlen1 : a1.length = a.length := by simp [ha1]
  have hlen2 : a2.length = a.length := by simp [ha2, hlen1]
  have hlen3 : a3.length = a.length := by simp [ha3, hlen2]
  have hlen4 : a4.length = a.length := by simp [ha4, hlen3]
  have hg2y : get a2 (from_ + 1) = get a (from_ + 1) := by
    rw [ha2, get_set_ne (by omega), ha1, get_set_ne (by omega)]
  have hg4from : get a4 from_ = m.1 := by
    rw [ha4, get_set_ne (by omega), ha3, get_set_ne (by omega), ha2,
      get_set_ne (by omega), ha1, get_set_self (by omega)]
  have hg4to : get a4 (to_ - 1) = m.2.2 := by
    rw [ha4, get_set_ne (by omega), ha3, get_set_ne (by omega), ha2,
      get_set_self (by omega)]
  have hg4le : get a4 (from_ + 1) = m.2.1 := by
    rw [ha4, get_set_self (by omega)]
  have hout : ∀ k, k < from_ ∨ to_ ≤ k → get a4 k = get a k := by
    intro k hk
    rw [ha4, get_set_ne (by omega), ha3, get_set_ne (by omega), ha2,
      get_set_ne (by omega), ha1, get_set_ne (by omega)]
  have c1 : (get a from_) ::ₘ ((a1 : List T) : Multiset T) = m.1 ::ₘ (a : Multiset T) := by
    rw [ha1]; exact cons_coe_set (by omega) _
  have c2 : (get a (to_ - 1)) ::ₘ ((a2 : List T) : Multiset T) =
      m.2.2 ::ₘ ((a1 : List T) : Multiset T) := by
    have : get a1 (to_ - 1) = get a (to_ - 1) := by
      rw [ha1, get_set_ne (by omega)]
    rw [ha2, ← this]
    exact cons_coe_set (by omega) _
  have c3 : (get a third) ::ₘ ((a3 : List T) : Multiset T) =
      (get a (from_ + 1)) ::ₘ ((a2 : List T) : Multiset T) := by
    have : get a2 third = get a third := by
      rw [ha2, get_set_ne (by omega), ha1, get_set_ne (by omega)]
    rw [ha3, ← this, ← hg2y]
    exact cons_coe_set (by omega) _
  have c4 : (get a (from_ + 1)) ::ₘ ((a4 : List T) : Multiset T) =
      m.2.1 ::ₘ ((a3 : List T) : Multiset T) := by
    have : get a3 (from_ + 1) = get a (from_ + 1) := by
      rw [ha3, get_set_ne (by omega), hg2y]
    rw [ha4, ← this]
    exact cons_coe_set (by omega) _
  have hms : ((a4 : List T) : Multiset T) = (a : Multiset T) := by
    set x0 := get a from_
    set x1 := get a (to_ - 1)
    set x2 := get a third
    set y := get a (from_ + 1)
    have E4 : x0 ::ₘ x1 ::ₘ x2 ::ₘ y ::ₘ ((a4 : List T) : Multiset T) =
        m.2.1 ::ₘ y ::ₘ m.2.2 ::ₘ m.1 ::ₘ (a : Multiset T) := by
      calc x0 ::ₘ x1 ::ₘ x2 ::ₘ y ::ₘ ((a4 : List T) : Multiset T)
          = x0 ::ₘ x1 ::ₘ x2 ::ₘ (m.2.1 ::ₘ ((a3 : List T) : Multiset T)) := by rw [c4]
        _ = x0 ::ₘ x1 ::ₘ m.2.1 ::ₘ (x2 ::ₘ ((a3 : List T) : Multiset T)) := by
            rw [Multiset.cons_swap x2 m.2.1]
        _ = x0 ::ₘ x1 ::ₘ m.2.1 ::ₘ (y ::ₘ ((a2 : List T) : Multiset T)) := by rw [c3]
        _ = x0 ::ₘ m.2.1 ::ₘ y ::ₘ (x1 ::ₘ ((a2 : List T) : Multiset T)) := by
            rw [Multiset.cons_swap x1 m.2.1, Multiset.cons_swap x1 y]
        _ = x0 ::ₘ m.2.1 ::ₘ y ::ₘ (m.2.2 ::ₘ ((a1 : List T) : Multiset T)) := by rw [c2]
        _ = m.2.1 ::ₘ y ::ₘ m.2.2 ::ₘ (x0 ::ₘ ((a1 : List T) : Multiset T)) := by
            rw [Multiset.cons_swap x0 m.2.1, Multiset.cons_swap x0 y,
              Multiset.cons_swap x0 m.2.2]
        _ = m.2.1 ::ₘ y ::ₘ m.2.2 ::ₘ (m.1 ::ₘ (a : Multiset T)) := by rw [c1]
    have E5 : y ::ₘ x0 ::ₘ x1 ::ₘ x2 ::ₘ ((a4 : List T) : Multiset T) =
        y ::ₘ m.2.1 ::ₘ m.2.2 ::ₘ m.1 ::ₘ (a : Multiset T) := by
      calc y ::ₘ x0 ::ₘ x1 ::ₘ x2 ::ₘ ((a4 : List T) : Multiset T)
          = x0 ::ₘ x1 ::ₘ x2 ::ₘ y ::ₘ ((a4 : List T) : Multiset T) := by
            rw [Multiset.cons_swap y x0, Multiset.cons_swap y x1, Multiset.cons_swap y x2]
        _ = m.2.1 ::ₘ y ::ₘ m.2.2 ::ₘ m.1 ::ₘ (a : Multiset T) := E4
        _ = y ::ₘ m.2.1 ::ₘ m.2.2 ::ₘ m.1 ::ₘ (a : Multiset T) := by
            rw [Multiset.cons_swap m.2.1 y]
    have E6 : x0 ::ₘ x1 ::ₘ x2 ::ₘ ((a4 : List T) : Multiset T) =
        m.2.1 ::ₘ m.2.2 ::ₘ m.1 ::ₘ (a : Multiset T) :=
      (Multiset.cons_inj_right _).mp E5
    have hmed : m.2.1 ::ₘ m.2.2 ::ₘ m.1 ::ₘ (a : Multiset T) =
        x0 ::ₘ x1 ::ₘ x2 ::ₘ (a : Multiset T) := by
      have h0 : m.2.1 ::ₘ m.2.2 ::ₘ m.1 ::ₘ (a : Multiset T) =
          m.1 ::ₘ m.2.1 ::ₘ m.2.2 ::ₘ (a : Multiset T) := by
        rw [Multiset.cons_swap m.2.2 m.1, Multiset.cons_swap m.2.1 m.1]
      rw [h0]
      exact cons3_congr mms _
    rw [hmed] at E6
    exact (Multiset.cons_inj_right _).mp ((Multiset.cons_inj_right _).mp
      ((Multiset.cons_inj_right _).mp E6))
  refine ⟨hlen4, hms, hout, ?_, ?_, hg4le⟩
  · rw [hg4from]; exact m1ord
  · rw [hg4to]; exact m2ord

/-- Gluing lemma: a list sorted on `[from_, le2)` and on `[hs2, to_)`, whose
lower part is at most the pivot, middle part pivot-equal and upper part at
least the pivot, is sorted on all of `[from_, to_)`. -/
theorem quickParts_assemble (cmp : T → T → Int)
    (hA : ∀ x y : T, cmp x y = - cmp y x)
    (hT : ∀ x y z : T, cmp x y ≤ 0 → cmp y z ≤ 0 → cmp x z ≤ 0)
    {d : List T} {from_ le2 hs2 to_ : Nat} (pivot : T)
    (hb1 : from_ < le2) (hb2 : le2 < hs2) (hb3 : hs2 < to_)
    (hS1 : adjSorted cmp d from_ le2)
    (hS2 : adjSorted cmp d hs2 to_)
    (hP1 : ∀ k, from_ ≤ k → k < le2 → cmp (get d k) pivot ≤ 0)
    (hP2 : ∀ k, le2 ≤ k → k < hs2 → cmp (get d k) pivot = 0)
    (hP3 : ∀ k, hs2 ≤ k → k < to_ → cmp pivot (get d k) ≤ 0) :
    adjSorted cmp d from_ to_ := by
  intro k hk hk2
  have hmid : ∀ k2, le2 ≤ k2 → k2 < hs2 → cmp pivot (get d k2) ≤ 0 := by
    intro k2 h1 h2
    have := hP2 k2 h1 h2
    have := hA (get d k2) pivot
    omega
  rcases (by omega : k + 1 < le2 ∨ k + 1 = le2 ∨ (le2 ≤ k ∧ k + 1 < hs2) ∨
      (le2 ≤ k ∧ k + 1 = hs2) ∨ hs2 ≤ k) with h | h | h | h | h
  · exact hS1 k hk h
  · exact hT _ pivot _ (hP1 k hk (by omega)) (hmid (k + 1) (by omega) (by omega))
  · exact hT _ pivot _ (by have := hP2 k h.1 (by omega); omega)
      (hmid (k + 1) (by omega) h.2)
  · exact hT _ pivot _ (by have := hP2 k h.1 (by omega); omega)
      (hP3 (k + 1) (by omega) hk2)
  · exact hS2 k h hk2

/-- Main specification of `_quickSort` (over its fuelled form): for a
comparator that is sign-antisymmetric and transitive, the range
`[from_, to_)` becomes sorted; the list keeps its length and its contents
(as a multiset), and nothing outside `[from_, to_)` moves. -/
theorem quickSortF_spec (cmp : T → T → Int)
    (hA : ∀ x y : T, cmp x y = - cmp y x)
    (hT : ∀ x y z : T, cmp x y ≤ 0 → cmp y z ≤ 0 → cmp x z ≤ 0) :
    ∀ (fuel : Nat) (a : List T) (from_ to_ : Nat),
    to_ - from_ ≤ fuel → to_ ≤ a.length →
    adjSorted cmp (quickSortF cmp fuel a from_ to_) from_ to_ ∧
    (quickSortF cmp fuel a from_ to_).length = a.length ∧
    (∀ k, k < from_ ∨ to_ ≤ k → get (quickSortF cmp fuel a from_ to_) k = get a k) ∧
    ((quickSortF cmp fuel a from_ to_ : List T) : Multiset T) = (a : Multiset T) := by
  intro fuel
  induction fuel with
  | zero =>
    intro a from_ to_ hf hlen
    exact ⟨adjSorted_vacuous (by omega), rfl, fun k _ => rfl, rfl⟩
  | succ fuel ih =>
    intro a from_ to_ hf hlen
    by_cases hbase : to_ - from_ ≤ 10
    · rw [quickSortF, if_pos hbase]
      exact _insertionSort_spec cmp hA a from_ to_ hlen
    · rw [quickSortF, if_neg hbase]
      have h11 : 11 ≤ to_ - from_ := by omega
      obtain ⟨p1, p2, p3, p4, p5, p6⟩ := setupPartition_spec cmp hA a from_ to_ h11 hlen
      rcases hpart : partitionLoopF cmp (setupPartition cmp a from_ to_).2
          (to_ - 1 - (from_ + 1 + 1)) (setupPartition cmp a from_ to_).1
          (from_ + 1) (to_ - 1) (from_ + 1 + 1) with ⟨a5, le2, hs2⟩
      obtain ⟨q1, q2, q3, q4, q5, q6, q7, q8, q9⟩ :=
        partitionLoopF_spec cmp (setupPartition cmp a from_ to_).2 (from_ + 1) (to_ - 1)
          (to_ - 1 - (from_ + 1 + 1)) (setupPartition cmp a from_ to_).1
          (from_ + 1) (to_ - 1) (from_ + 1 + 1) a5 le2 hs2 hpart
          (by omega) (le_refl _) (by omega) (by omega) (le_refl _) (by omega)
          (fun k hk hk2 => absurd hk (by omega))
          (by
            intro k hk hk2
            have hkeq : k = from_ + 1 := by omega
            rw [hkeq, p6]
            exact cmp_refl hA _)
          (fun k hk hk2 => absurd hk (by omega))
      set pivot := (setupPartition cmp a from_ to_).2 with hpiv
      set a4 := (setupPartition cmp a from_ to_).1 with ha4
      have hlen5 : a5.length = a.length := by omega
      have hout5 : ∀ k, k < from_ ∨ to_ ≤ k → get a5 k = get a k := by
        intro k hk
        rw [q5 k (by omega), p3 k hk]
      have hms5 : ((a5 : List T) : Multiset T) = (a : Multiset T) := q6.trans p2
      have hle_piv : ∀ k, from_ ≤ k → k < le2 → cmp (get a5 k) pivot ≤ 0 := by
        intro k hk hk2
        rcases (by omega : k = from_ ∨ from_ + 1 ≤ k) with h | h
        · rw [h, q5 from_ (by omega)]
          exact p4
        · have := q7 k h hk2
          omega
      have heq_piv : ∀ k, le2 ≤ k → k < hs2 → cmp (get a5 k) pivot = 0 := q8
      have hge_piv : ∀ k, hs2 ≤ k → k < to_ → cmp pivot (get a5 k) ≤ 0 := by
        intro k hk hk2
        rcases (by omega : k = to_ - 1 ∨ k < to_ - 1) with h | h
        · rw [h, q5 (to_ - 1) (by omega)]
          exact p5
        · have := q9 k hk h
          have := hA pivot (get a5 k)
          omega
      have hble2 : from_ + 1 ≤ le2 := q1
      have hbhs2 : le2 < hs2 := q2
      have hbto : hs2 ≤ to_ - 1 := q3
      simp only [hpart]
      by_cases hside : to_ - hs2 < le2 - from_
      · rw [if_pos hside]
        obtain ⟨cS, cL, cO, cM⟩ := ih a5 hs2 to_ (by omega) (by omega)
        set c := quickSortF cmp fuel a5 hs2 to_ with hc
        obtain ⟨dS, dL, dO, dM⟩ := ih c from_ le2 (by omega) (by omega)
        set d := quickSortF cmp fuel c from_ le2 with hd
        refine ⟨?_, by omega, ?_, ?_⟩
        · refine quickParts_assemble cmp hA hT pivot (by omega) hbhs2 (by omega) dS ?_ ?_ ?_ ?_
          · exact adjSorted_congr cS (fun k hk hk2 => dO k (by omega))
          · exact seg_transfer dL (by omega) dM dO (fun x => cmp x pivot ≤ 0)
              (fun k hk hk2 => by rw [cO k (by omega)]; exact hle_piv k hk hk2)
          · intro k hk hk2
            rw [dO k (by omega), cO k (by omega)]
            exact heq_piv k hk hk2
          · intro k hk hk2
            rw [dO k (by omega)]
            exact seg_transfer cL (by omega) cM cO (fun x => cmp pivot x ≤ 0)
              hge_piv k hk hk2
        · intro k hk
          rw [dO k (by omega), cO k (by omega), hout5 k hk]
        · rw [dM, cM, hms5]
      · rw [if_neg hside]
        obtain ⟨cS, cL, cO, cM⟩ := ih a5 from_ le2 (by omega) (by omega)
        set c := quickSortF cmp fuel a5 from_ le2 with hc
        obtain ⟨dS, dL, dO, dM⟩ := ih c hs2 to_ (by omega) (by omega)
        set d := quickSortF cmp fuel c hs2 to_ with hd
        refine ⟨?_, by omega, ?_, ?_⟩
        · refine quickParts_assemble cmp hA hT pivot (by omega) hbhs2 (by omega) ?_ dS ?_ ?_ ?_
          · exact adjSorted_congr cS (fun k hk hk2 => dO k (by omega))
          · intro k hk hk2
            rw [dO k (by omega)]
            exact seg_transfer cL (by omega) cM cO (fun x => cmp x pivot ≤ 0)
              hle_piv k hk hk2
          · intro k hk hk2
            rw [dO k (by omega), cO k (by omega)]
            exact heq_piv k hk hk2
          · exact seg_transfer dL (by omega) dM dO (fun x => cmp pivot x ≤ 0)
              (fun k hk hk2 => by rw [cO k (by omega)]; exact hge_piv k hk hk2)
        · intro k hk
          rw [dO k (by omega), cO k (by omega), hout5 k hk]
        · rw [dM, cM, hms5]

/-- Top-level specification of `RenderQueue._quickSort`. -/
theorem _quickSort_spec (cmp : T → T → Int)
    (hA : ∀ x y : T, cmp x y = - cmp y x)
    (hT : ∀ x y z : T, cmp x y ≤ 0 → cmp y z ≤ 0 → cmp x z ≤ 0)
    (a : List T) (from_ to_ : Nat) (hlen : to_ ≤ a.length) :
    adjSorted cmp (_quickSort cmp a from_ to_) from_ to_ ∧
    (_quickSort cmp a from_ to_).length = a.length ∧
    (∀ k, k < from_ ∨ to_ ≤ k → get (_quickSort cmp a from_ to_) k = get a k) ∧
    ((_quickSort cmp a from_ to_ : List T) : Multiset T) = (a : Multiset T) :=
  quickSortF_spec cmp hA hT (to_ - from_) a from_ to_ (le_refl _) hlen

theorem adjSorted_pairs {cmp : T → T → Int}
    (hT : ∀ x y z : T, cmp x y ≤ 0 → cmp y z ≤ 0 → cmp x z ≤ 0)
    {a : List T} {lo hi : Nat} (h : adjSorted cmp a lo hi) :
    ∀ i j, lo ≤ i → i < j → j < hi → cmp (get a i) (get a j) ≤ 0 := by
  intro i j
  induction j with
  | zero => omega
  | succ j ih =>
    intro hlo hij hj
    rcases (by omega : i = j ∨ i < j) with hcase | hcase
    · rw [hcase]
      exact h j (by omega) hj
    · exact hT _ _ _ (ih hlo hcase (by omega)) (h j (by omega) hj)

theorem adjSorted_pairwise {cmp : T → T → Int}
    (hT : ∀ x y z : T, cmp x y ≤ 0 → cmp y z ≤ 0 → cmp x z ≤ 0)
    {l : List T} (h : adjSorted cmp l 0 l.length) :
    l.Pairwise (fun x y => cmp x y ≤ 0) := by
  rw [List.pairwise_iff_get]
  intro i j hij
  have hp := adjSorted_pairs hT h (i : Nat) (j : Nat) (by omega) hij j.isLt
  have hgi : l.get i = get l (i : Nat) := by
    unfold get
    rw [List.getD_eq_get _ _ i.isLt]
  have hgj : l.get j = get l (j : Nat) := by
    unfold get
    rw [List.getD_eq_get _ _ j.isLt]
  rw [hgi, hgj]
  exact hp

theorem set_get_self : ∀ (a : List T) (i : Nat), a.set i (get a i) = a := by
  intro a
  induction a with
  | nil => intro i; rfl
  | cons x xs ih =>
    intro i
    cases i with
    | zero => rfl
    | succ n =>
      rw [List.set_cons_succ, get_cons_succ, ih n]

/-- The insertion sort leaves an already-sorted range untouched. -/
theorem insSortLoopF_id (cmp : T → T → Int) (from_ to_ : Nat) :
    ∀ (fuel : Nat) (a : List T) (i : Nat),
    fuel = to_ - i → from_ + 1 ≤ i → to_ ≤ a.length →
    adjSorted cmp a from_ to_ →
    insSortLoopF cmp from_ fuel a i = a := by
  intro fuel
  induction fuel with
  | zero => intro a i _ _ _ _; rfl
  | succ fuel ih =>
    intro a i hfuel hi hlen hsort
    have hito : i < to_ := by omega
    rw [insSortLoopF]
    have hfin : i - from_ = (i - from_ - 1) + 1 := by omega
    have hinner : insertLoopF cmp (get a i) from_ (i - from_) a (i - 1) = a := by
      rw [hfin, insertLoopF]
      have hpair : cmp (get a (i - 1)) (get a i) ≤ 0 := by
        have := hsort (i - 1) (by omega) (by rw [(by omega : i - 1 + 1 = i)]; omega)
        rw [(by omega : i - 1 + 1 = i)] at this
        exact this
      rw [if_neg (by omega), (by omega : i - 1 + 1 = i), set_get_self]
    rw [hinner]
    exact ih a (i + 1) (by omega) (by omega) hlen hsort

theorem _insertionSort_id (cmp : T → T → Int) {a : List T} {from_ to_ : Nat}
    (hlen : to_ ≤ a.length) (hsort : adjSorted cmp a from_ to_) :
    _insertionSort cmp a from_ to_ = a :=
  insSortLoopF_id cmp from_ to_ (to_ - (from_ + 1)) a (from_ + 1) rfl (le_refl _)
    hlen hsort

/-- When the whole range has length at most 10, `_quickSort` immediately
falls through to the insertion sort. -/
theorem sort_small_eq_insertion (cmp : RElem → RElem → Int) (items : List RElem)
    (h : items.length ≤ 10) :
    sort cmp items = _insertionSort cmp items 0 items.length := by
  unfold sort _quickSort
  cases hn : items.length with
  | zero => rfl
  | succ n =>
    rw [Nat.sub_zero, quickSortF, if_pos (by omega : n + 1 - 0 ≤ 10)]

theorem pairwise_adjSorted {cmp : T → T → Int} {l : List T}
    (h : l.Pairwise (fun x y => cmp x y ≤ 0)) : adjSorted cmp l 0 l.length := by
  rw [List.pairwise_iff_get] at h
  intro k _ hk2
  have := h ⟨k, by omega⟩ ⟨k + 1, by omega⟩ (by simp)
  have hgi : l.get ⟨k, by omega⟩ = get l k := by
    unfold get
    rw [List.getD_eq_get]
  have hgj : l.get ⟨k + 1, by omega⟩ = get l (k + 1) := by
    unfold get
    rw [List.getD_eq_get]
  rw [hgi, hgj] at this
  exact this

/-- Comparator-sorted inputs of length at most 10 are returned exactly
unchanged by `RenderQueue.sort`. -/
theorem sort_sorted_small_id (cmp : RElem → RElem → Int) (items : List RElem)
    (hsort : items.Pairwise (fun x y => cmp x y ≤ 0)) (h : items.length ≤ 10) :
    sort cmp items = items := by
  rw [sort_small_eq_insertion cmp items h]
  exact _insertionSort_id cmp (le_refl _) (pairwise_adjSorted hsort)

end SortProofs

/-- Sign antisymmetry of the near-to-far comparator. -/
theorem near_antisym (x y : RElem) :
    _compareFromNearToFar x y = - _compareFromNearToFar y x := by
  unfold _compareFromNearToFar
  dsimp only
  split_ifs <;> omega

theorem near_trans (x y z : RElem) :
    _compareFromNearToFar x y ≤ 0 → _compareFromNearToFar y z ≤ 0 →
    _compareFromNearToFar x z ≤ 0 := by
  unfold _compareFromNearToFar
  dsimp only
  split_ifs <;> omega

theorem far_antisym (x y : RElem) :
    _compareFromFarToNear x y = - _compareFromFarToNear y x := by
  unfold _compareFromFarToNear
  dsimp only
  split_ifs <;> omega

theorem far_trans (x y z : RElem) :
    _compareFromFarToNear x y ≤ 0 → _compareFromFarToNear y z ≤ 0 →
    _compareFromFarToNear x z ≤ 0 := by
  unfold _compareFromFarToNear
  dsimp only
  split_ifs <;> omega

theorem near_le_iff (x y : RElem) : _compareFromNearToFar x y ≤ 0 ↔ nearLE x y := by
  unfold _compareFromNearToFar nearLE
  dsimp only
  split_ifs <;> omega

theorem far_le_iff (x y : RElem) : _compareFromFarToNear x y ≤ 0 ↔ farLE x y := by
  unfold _compareFromFarToNear farLE
  dsimp only
  split_ifs <;> omega

theorem sort_near_pairwise (items : List RElem) :
    (sort _compareFromNearToFar items).Pairwise nearLE := by
  obtain ⟨hS, hL, _, _⟩ :=
    _quickSort_spec _compareFromNearToFar near_antisym near_trans items 0
      items.length (le_refl _)
  have : adjSorted _compareFromNearToFar (sort _compareFromNearToFar items) 0
      (sort _compareFromNearToFar items).length := by
    unfold sort
    rw [hL]
    exact hS
  exact (adjSorted_pairwise near_trans this).imp (fun h => (near_le_iff _ _).mp h)

theorem sort_far_pairwise (items : List RElem) :
    (sort _compareFromFarToNear items).Pairwise farLE := by
  obtain ⟨hS, hL, _, _⟩ :=
    _quickSort_spec _compareFromFarToNear far_antisym far_trans items 0
      items.length (le_refl _)
  have : adjSorted _compareFromFarToNear (sort _compareFromFarToNear items) 0
      (sort _compareFromFarToNear items).length := by
    unfold sort
    rw [hL]
    exact hS
  exact (adjSorted_pairwise far_trans this).imp (fun h => (far_le_iff _ _).mp h)

theorem sort_perm_near (items : List RElem) :
    List.Perm (sort _compareFromNearToFar items) items := by
  obtain ⟨_, _, _, hM⟩ :=
    _quickSort_spec _compareFromNearToFar near_antisym near_trans items 0
      items.length (le_refl _)
  exact Multiset.coe_eq_coe.mp hM

theorem sort_perm_far (items : List RElem) :
    List.Perm (sort _compareFromFarToNear items) items := by
  obtain ⟨_, _, _, hM⟩ :=
    _quickSort_spec _compareFromFarToNear far_antisym far_trans items 0
      items.length (le_refl _)
  exact Multiset.coe_eq_coe.mp hM

/-- Sorting a near-to-far-sorted list preserves the sequence of
`(priority, distance)` keys: the output is a permutation of the input and
both are sorted for the antisymmetric key order. -/
theorem sort_near_keys (items : List RElem)
    (hsort : items.Pairwise (fun x y => _compareFromNearToFar x y ≤ 0)) :
    (sort _compareFromNearToFar items).map keyOf = items.map keyOf := by
  letI : IsAntisymm (Int × Int) keyNearLE := ⟨by
    intro p q h1 h2
    unfold keyNearLE at h1 h2
    have hp : p.1 = q.1 ∧ p.2 = q.2 := by omega
    exact Prod.ext hp.1 hp.2⟩
  have h1 : (List.map keyOf (sort _compareFromNearToFar items)).Pairwise keyNearLE := by
    rw [List.pairwise_map]
    exact (sort_near_pairwise items).imp (fun h => h)
  have h2 : (List.map keyOf items).Pairwise keyNearLE := by
    rw [List.pairwise_map]
    exact hsort.imp (fun h => (near_le_iff _ _).mp h)
  exact List.eq_of_perm_of_sorted ((sort_perm_near items).map keyOf) h1 h2

theorem sort_far_keys (items : List RElem)
    (hsort : items.Pairwise (fun x y => _compareFromFarToNear x y ≤ 0)) :
    (sort _compareFromFarToNear items).map keyOf = items.map keyOf := by
  letI : IsAntisymm (Int × Int) keyFarLE := ⟨by
    intro p q h1 h2
    unfold keyFarLE at h1 h2
    have hp : p.1 = q.1 ∧ p.2 = q.2 := by omega
    exact Prod.ext hp.1 hp.2⟩
  have h1 : (List.map keyOf (sort _compareFromFarToNear items)).Pairwise keyFarLE := by
    rw [List.pairwise_map]
    exact (sort_far_pairwise items).imp (fun h => h)
  have h2 : (List.map keyOf items).Pairwise keyFarLE := by
    rw [List.pairwise_map]
    exact hsort.imp (fun h => (far_le_iff _ _).mp h)
  exact List.eq_of_perm_of_sorted ((sort_perm_far items).map keyOf) h1 h2

end RenderQueue

/-- C1: after `RenderQueue.sort` with the near-to-far comparator the sequence
is non-decreasing in the lexicographic key `(priority, distance)` (stated for
every pair of positions via `Pairwise`); with the far-to-near comparator it is
non-decreasing in priority and non-increasing in distance among equal
priorities; and the concrete example `[(0,5),(0,1),(1,0)]` sorted near-to-far
yields `[(0,1),(0,5),(1,0)]`. -/
theorem C1_sort_comparator_order :
    (∀ items : List RElem,
      (RenderQueue.sort RenderQueue._compareFromNearToFar items).Pairwise
        RenderQueue.nearLE) ∧
    (∀ items : List RElem,
      (RenderQueue.sort RenderQueue._compareFromFarToNear items).Pairwise
        RenderQueue.farLE) ∧
    RenderQueue.sort RenderQueue._compareFromNearToFar
        [⟨0, 5, 0⟩, ⟨0, 1, 1⟩, ⟨1, 0, 2⟩] =
      [⟨0, 1, 1⟩, ⟨0, 5, 0⟩, ⟨1, 0, 2⟩] :=
  ⟨RenderQueue.sort_near_pairwise, RenderQueue.sort_far_pairwise, by decide⟩

/-- C4: for every list of length at most 10 and every comparator,
`RenderQueue.sort` returns exactly the output of the plain insertion sort
over the same range with the same comparator. -/
theorem C4_small_sort_is_insertion_sort (cmp : RElem → RElem → Int)
    (items : List RElem) (h : items.length ≤ 10) :
    RenderQueue.sort cmp items =
      RenderQueue._insertionSort cmp items 0 items.length :=
  RenderQueue.sort_small_eq_insertion cmp items h

/-- Witness for C4 at a concrete input. -/
theorem C4_small_sort_is_insertion_sort_witness :
    ([⟨0, 2, 0⟩, ⟨0, 1, 1⟩, ⟨1, 0, 2⟩] : List RElem).length ≤ 10 ∧
    RenderQueue.sort RenderQueue._compareFromNearToFar
        [⟨0, 2, 0⟩, ⟨0, 1, 1⟩, ⟨1, 0, 2⟩] =
      RenderQueue._insertionSort RenderQueue._compareFromNearToFar
        [⟨0, 2, 0⟩, ⟨0, 1, 1⟩, ⟨1, 0, 2⟩] 0
        ([⟨0, 2, 0⟩, ⟨0, 1, 1⟩, ⟨1, 0, 2⟩] : List RElem).length :=
  ⟨by decide, C4_small_sort_is_insertion_sort RenderQueue._compareFromNearToFar
    [⟨0, 2, 0⟩, ⟨0, 1, 1⟩, ⟨1, 0, 2⟩] (by decide)⟩

/-- C5 counterexample: `elevenEqual` is sorted for the near-to-far comparator
(all its elements are comparator-equal), yet `RenderQueue.sort` does not
leave every element in its original position: the median-of-three setup
moves comparator-equal elements. -/
theorem C5_counterexample_sorted_input_moves :
    RenderQueue.elevenEqual.Pairwise
      (fun x y => RenderQueue._compareFromNearToFar x y ≤ 0) ∧
    RenderQueue.sort RenderQueue._compareFromNearToFar RenderQueue.elevenEqual ≠
      RenderQueue.elevenEqual := by
  constructor
  · decide
  · decide

/-- C5 amended: sorting an already-sorted sequence leaves every element in
its original position when the sequence has length at most 10 (the
insertion-sort path); for arbitrary length the sequence of
`(priority, distance)` sort keys is left exactly unchanged for both
canonical comparators, but comparator-equal elements may be permuted. -/
theorem C5_sorted_input_amended :
    (∀ (cmp : RElem → RElem → Int) (items : List RElem),
      items.Pairwise (fun x y => cmp x y ≤ 0) → items.length ≤ 10 →
      RenderQueue.sort cmp items = items) ∧
    (∀ items : List RElem,
      items.Pairwise (fun x y => RenderQueue._compareFromNearToFar x y ≤ 0) →
      (RenderQueue.sort RenderQueue._compareFromNearToFar items).map
          RenderQueue.keyOf = items.map RenderQueue.keyOf) ∧
    (∀ items : List RElem,
      items.Pairwise (fun x y => RenderQueue._compareFromFarToNear x y ≤ 0) →
      (RenderQueue.sort RenderQueue._compareFromFarToNear items).map
          RenderQueue.keyOf = items.map RenderQueue.keyOf) :=
  ⟨RenderQueue.sort_sorted_small_id, RenderQueue.sort_near_keys,
    RenderQueue.sort_far_keys⟩

/-- Witness for the amended C5 at concrete inputs. -/
theorem C5_sorted_input_amended_witness :
    RenderQueue.sort RenderQueue._compareFromNearToFar
        [⟨0, 1, 0⟩, ⟨0, 2, 1⟩] = [⟨0, 1, 0⟩, ⟨0, 2, 1⟩] ∧
    (RenderQueue.sort RenderQueue._compareFromNearToFar
        RenderQueue.elevenEqual).map RenderQueue.keyOf =
      RenderQueue.elevenEqual.map RenderQueue.keyOf :=
  ⟨C5_sorted_input_amended.1 RenderQueue._compareFromNearToFar
      [⟨0, 1, 0⟩, ⟨0, 2, 1⟩] (by decide) (by decide),
    C5_sorted_input_amended.2.1 RenderQueue.elevenEqual (by decide)⟩

/-- C6: every one of the setters `nearClipPlane`, `farClipPlane`,
`fieldOfView`, `orthographicSize`, `viewport`, `aspectRatio`,
`isOrthographic` sets all four projection-derived dirty bits in the single
`_projMatChange` step and leaves every stored matrix untouched
(recomputation happens only on the next getter read). -/
theorem C6_setters_set_dirty_bits_no_recompute :
    ∀ (s : CameraState) (q : ℚ) (vp : Vec4Q) (b : Bool),
    (CameraState.projDirtyAll (CameraState.set_nearClipPlane s q) ∧
      CameraState.matricesEq (CameraState.set_nearClipPlane s q) s) ∧
    (CameraState.projDirtyAll (CameraState.set_farClipPlane s q) ∧
      CameraState.matricesEq (CameraState.set_farClipPlane s q) s) ∧
    (CameraState.projDirtyAll (CameraState.set_fieldOfView s q) ∧
      CameraState.matricesEq (CameraState.set_fieldOfView s q) s) ∧
    (CameraState.projDirtyAll (CameraState.set_orthographicSize s q) ∧
      CameraState.matricesEq (CameraState.set_orthographicSize s q) s) ∧
    (CameraState.projDirtyAll (CameraState.set_viewport s vp) ∧
      CameraState.matricesEq (CameraState.set_viewport s vp) s) ∧
    (CameraState.projDirtyAll (CameraState.set_aspect s q) ∧
      CameraState.matricesEq (CameraState.set_aspect s q) s) ∧
    (CameraState.projDirtyAll (CameraState.set_isOrthographic s b) ∧
      CameraState.matricesEq (CameraState.set_isOrthographic s b) s) :=
  fun _ _ _ _ =>
    ⟨⟨⟨rfl, rfl, rfl, rfl⟩, rfl, rfl, rfl⟩, ⟨⟨rfl, rfl, rfl, rfl⟩, rfl, rfl, rfl⟩,
      ⟨⟨rfl, rfl, rfl, rfl⟩, rfl, rfl, rfl⟩, ⟨⟨rfl, rfl, rfl, rfl⟩, rfl, rfl, rfl⟩,
      ⟨⟨rfl, rfl, rfl, rfl⟩, rfl, rfl, rfl⟩, ⟨⟨rfl, rfl, rfl, rfl⟩, rfl, rfl, rfl⟩,
      ⟨⟨rfl, rfl, rfl, rfl⟩, rfl, rfl, rfl⟩⟩

/-- C2 counterexample: a camera renders once with a 2×2 canvas (read syncs
`_lastAspectSize`), then `projectionMatrix` is assigned manually.  A read
with the unchanged canvas still returns the manual matrix, but after the
canvas is resized to 4×2 the next read re-derives the projection
automatically and no longer returns the manually set matrix — contradicting
the claim that the manual value is retained regardless of canvas-size
changes. -/
theorem C2_counterexample_canvas_resize_overrides_manual :
    (CameraState.getProjectionMatrix
        (CameraState.set_projectionMatrix
          (CameraState.getProjectionMatrix CameraState.init 2 2).2
          (.custom 1)) 2 2).1 = .custom 1 ∧
    (CameraState.getProjectionMatrix
        (CameraState.set_projectionMatrix
          (CameraState.getProjectionMatrix CameraState.init 2 2).2
          (.custom 1)) 4 2).1 ≠ .custom 1 := by
  constructor
  · decide
  · decide

/-- C2 amended: once `projectionMatrix` has been explicitly assigned, every
read performed while the canvas size still equals the last-seen
`_lastAspectSize` returns the manually set matrix unchanged (and does not
mutate the camera), regardless of intervening parameter mutations — each
parameter setter preserves the manual-set flag, the stored matrix and the
last-seen canvas size — until `resetProjectionMatrix()` clears the flag.  A
canvas-size change, however, causes the next read to re-derive the
projection automatically, overwriting the manual matrix. -/
theorem C2_manual_projection_retained_amended (s : CameraState) (w h : ℚ)
    (hset : s.isProjMatSetting = true)
    (hw : s.lastAspectSizeX = w) (hh : s.lastAspectSizeY = h) :
    (CameraState.getProjectionMatrix s w h).1 = s.projectionMatrix ∧
    (CameraState.getProjectionMatrix s w h).2 = s ∧
    (∀ (q : ℚ) (vp : Vec4Q) (b : Bool),
      ∀ t ∈ [CameraState.set_nearClipPlane s q, CameraState.set_farClipPlane s q,
        CameraState.set_fieldOfView s q, CameraState.set_orthographicSize s q,
        CameraState.set_viewport s vp, CameraState.set_aspect s q,
        CameraState.set_isOrthographic s b],
        t.isProjMatSetting = true ∧ t.projectionMatrix = s.projectionMatrix ∧
        t.lastAspectSizeX = w ∧ t.lastAspectSizeY = h) ∧
    (CameraState.resetProjectionMatrix s).isProjMatSetting = false := by
  have hcond : (s.isProjectionDirty = false ∨ s.isProjMatSetting = true) ∧
      s.lastAspectSizeX = w ∧ s.lastAspectSizeY = h := ⟨Or.inr hset, hw, hh⟩
  refine ⟨?_, ?_, ?_, rfl⟩
  · rw [CameraState.getProjectionMatrix, if_pos hcond]
  · rw [CameraState.getProjectionMatrix, if_pos hcond]
  · intro q vp b t ht
    simp only [List.mem_cons, List.mem_singleton] at ht
    rcases ht with rfl | rfl | rfl | rfl | rfl | rfl | rfl | h
    all_goals first
      | exact ⟨hset, rfl, hw, hh⟩
      | cases h

/-- Witness for the amended C2: a camera that has read once with a 2×2
canvas and then had `projectionMatrix` assigned manually. -/
theorem C2_manual_projection_retained_amended_witness :
    ((CameraState.set_projectionMatrix
        (CameraState.getProjectionMatrix CameraState.init 2 2).2
        (.custom 1)).isProjMatSetting = true ∧
      (CameraState.set_projectionMatrix
        (CameraState.getProjectionMatrix CameraState.init 2 2).2
        (.custom 1)).lastAspectSizeX = 2 ∧
      (CameraState.set_projectionMatrix
        (CameraState.getProjectionMatrix CameraState.init 2 2).2
        (.custom 1)).lastAspectSizeY = 2) ∧
    (CameraState.getProjectionMatrix
      (CameraState.set_projectionMatrix
        (CameraState.getProjectionMatrix CameraState.init 2 2).2
        (.custom 1)) 2 2).1 =
      (CameraState.set_projectionMatrix
        (CameraState.getProjectionMatrix CameraState.init 2 2).2
        (.custom 1)).projectionMatrix :=
  ⟨⟨by decide, by decide, by decide⟩,
    (C2_manual_projection_retained_amended
      (CameraState.set_projectionMatrix
        (CameraState.getProjectionMatrix CameraState.init 2 2).2
        (.custom 1)) 2 2 (by decide) (by decide) (by decide)).1⟩

namespace CameraMath

namespace CameraP

theorem apply4_mul (a b : Mat4) (v : Vec4Qh) :
    (a.mul b).apply4 v = a.apply4 (b.apply4 v) := by
  unfold Mat4.mul Mat4.apply4
  ext <;> dsimp <;> ring

theorem apply4_smul (m : Mat4) (k : ℚ) (v : Vec4Qh) :
    m.apply4 (smul4 k v) = smul4 k (m.apply4 v) := by
  unfold Mat4.apply4 smul4
  ext <;> dsimp <;> ring

theorem viewMatrix_apply_w (c : CameraP) (x y z : ℚ) :
    ((viewMatrixP c).apply4 ⟨x, y, z, 1⟩).w = 1 := by
  simp only [viewMatrixP, rotationTranslation, Mat4.apply4]
  ring

/-- For a unit rotation quaternion, the world matrix is a two-sided inverse
of the view matrix at the level of vectors. -/
theorem world_view_id (c : CameraP)
    (hq : c.qx ^ 2 + c.qy ^ 2 + c.qz ^ 2 + c.qw ^ 2 = 1) (v : Vec4Qh) :
    (rotationTranslation c).apply4 ((viewMatrixP c).apply4 v) = v := by
  simp only [viewMatrixP, rotationTranslation, Mat4.apply4]
  ext
  · dsimp
    linear_combination ((4 * c.qy ^ 2 + 4 * c.qz ^ 2) * (v.x - c.tx * v.w) +
      (-4 * c.qx * c.qy) * (v.y - c.ty * v.w) +
      (-4 * c.qx * c.qz) * (v.z - c.tz * v.w)) * hq
  · dsimp
    linear_combination ((-4 * c.qx * c.qy) * (v.x - c.tx * v.w) +
      (4 * c.qx ^ 2 + 4 * c.qz ^ 2) * (v.y - c.ty * v.w) +
      (-4 * c.qy * c.qz) * (v.z - c.tz * v.w)) * hq
  · dsimp
    linear_combination ((-4 * c.qx * c.qz) * (v.x - c.tx * v.w) +
      (-4 * c.qy * c.qz) * (v.y - c.ty * v.w) +
      (4 * c.qx ^ 2 + 4 * c.qy ^ 2) * (v.z - c.tz * v.w)) * hq
  · dsimp
    ring

/-- The modelled inverse of the perspective matrix is a left inverse at the
level of vectors. -/
theorem persp_inv_id (fcot aspect n f : ℚ) (hc : fcot ≠ 0) (ha : aspect ≠ 0)
    (hn : n ≠ 0) (hf : f ≠ 0) (hnf : n - f ≠ 0) (v : Vec4Qh) :
    (perspectiveInvQ fcot aspect n f).apply4
      ((perspectiveQ fcot aspect n f).apply4 v) = v := by
  unfold perspectiveInvQ perspectiveQ Mat4.apply4
  ext <;> dsimp <;> field_simp [hc, ha, hn, hf, hnf] <;> ring

/-- The modelled inverse of the symmetric orthographic matrix is a left
inverse at the level of vectors. -/
theorem ortho_inv_id (hw hh n f : ℚ) (hwne : hw ≠ 0) (hhne : hh ≠ 0)
    (hnf : n - f ≠ 0) (v : Vec4Qh) :
    (orthoInvQ hw hh n f).apply4
      ((orthoQ (-hw) hw (-hh) hh n f).apply4 v) = v := by
  unfold orthoInvQ orthoQ Mat4.apply4
  ext
  · dsimp
    field_simp
    ring_nf
    field_simp
  · dsimp
    field_simp
    ring_nf
    field_simp
  · dsimp
    field_simp
    ring
  · dsimp
    ring

/-- Round trip `viewportToWorldPoint ∘ worldToViewportPoint = id` for a
perspective camera, over exact arithmetic. -/
theorem roundtrip_perspective (c : CameraP) (p : Vec3Q)
    (hmode : c.isOrthographic = false)
    (hq : c.qx ^ 2 + c.qy ^ 2 + c.qz ^ 2 + c.qw ^ 2 = 1)
    (hfc : 0 < c.fcot) (ha : 0 < c.aspect)
    (hnear : 0 < c.nearClipPlane) (hfar : c.nearClipPlane < c.farClipPlane)
    (hd1 : c.nearClipPlane < -(transformCoordinate p (viewMatrixP c)).z)
    (hd2 : -(transformCoordinate p (viewMatrixP c)).z < c.farClipPlane) :
    viewportToWorldPoint c (worldToViewportPoint c p) = p := by
  have hfcne : c.fcot ≠ 0 := ne_of_gt hfc
  have hane : c.aspect ≠ 0 := ne_of_gt ha
  have hnne : c.nearClipPlane ≠ 0 := ne_of_gt hnear
  have hfne : c.farClipPlane ≠ 0 := ne_of_gt (lt_trans hnear hfar)
  have hnfne : c.nearClipPlane - c.farClipPlane ≠ 0 := sub_ne_zero.mpr (ne_of_lt hfar)
  set V := viewMatrixP c with hV
  set P := perspectiveQ c.fcot c.aspect c.nearClipPlane c.farClipPlane with hP
  set vph := V.apply4 ⟨p.x, p.y, p.z, 1⟩ with hvph
  set clip := P.apply4 vph with hclip
  set d := -vph.z with hd
  have hVw : vph.w = 1 := by
    rw [hvph, hV]; exact viewMatrix_apply_w c p.x p.y p.z
  have hcam : transformCoordinate p V = ⟨vph.x, vph.y, vph.z⟩ := by
    unfold transformCoordinate transformToVec4
    rw [← hvph]
    dsimp only
    rw [hVw]
    ext <;> simp
  rw [hcam] at hd1 hd2
  dsimp at hd1 hd2
  rw [← hd] at hd1 hd2
  have hdpos : 0 < d := lt_trans hnear hd1
  have hdne : d ≠ 0 := ne_of_gt hdpos
  have hclipw : clip.w = d := by
    rw [hclip, hP]
    unfold perspectiveQ Mat4.apply4
    dsimp
    rw [hd]
    ring
  have hclipz : clip.z =
      (c.farClipPlane + c.nearClipPlane) *
        (1 / (c.nearClipPlane - c.farClipPlane)) * vph.z +
      2 * c.farClipPlane * c.nearClipPlane *
        (1 / (c.nearClipPlane - c.farClipPlane)) * vph.w := by
    rw [hclip, hP]
    unfold perspectiveQ Mat4.apply4
    dsimp
    ring
  have hPm : projectionMatrixP c = P := by
    rw [hP]
    unfold projectionMatrixP
    rw [if_pos hmode]
  have htv : transformToVec4 ⟨vph.x, vph.y, vph.z⟩ P = clip := by
    unfold transformToVec4
    rw [hclip]
    congr 1
    ext <;> simp [hVw]
  have hout : worldToViewportPoint c p =
      ⟨(clip.x / d + 1) * (1 / 2), (1 - clip.y / d) * (1 / 2), d⟩ := by
    unfold worldToViewportPoint
    dsimp only
    rw [← hV, hcam, hPm, htv, hclipw]
  have hiVP : invViewProjMatP c = (rotationTranslation c).mul
      (perspectiveInvQ c.fcot c.aspect c.nearClipPlane c.farClipPlane) := by
    unfold invViewProjMatP worldMatrixP inverseProjectionMatrixP
    rw [if_pos hmode]
  have hinv : (perspectiveInvQ c.fcot c.aspect c.nearClipPlane
      c.farClipPlane).apply4 clip = vph := by
    rw [hclip, hP]
    exact persp_inv_id _ _ _ _ hfcne hane hnne hfne hnfne vph
  have hWV : (rotationTranslation c).apply4 vph = ⟨p.x, p.y, p.z, 1⟩ := by
    rw [hvph, hV]
    exact world_view_id c hq ⟨p.x, p.y, p.z, 1⟩
  rw [hout]
  unfold viewportToWorldPoint
  dsimp only
  rw [if_neg (by rw [hmode]; exact Bool.false_ne_true)]
  unfold _innerViewportToWorldPoint
  have hXYZ : (⟨((clip.x / d + 1) * (1 / 2)) * 2 - 1,
      1 - ((1 - clip.y / d) * (1 / 2)) * 2,
      ((((-d * (c.nearClipPlane + c.farClipPlane) *
            (1 / (c.nearClipPlane - c.farClipPlane)) +
          2 * c.nearClipPlane * c.farClipPlane *
            (1 / (c.nearClipPlane - c.farClipPlane))) / d) + 1) * (1 / 2)) * 2 - 1⟩ :
      Vec3Q) = ⟨clip.x / d, clip.y / d, clip.z / d⟩ := by
    ext
    · dsimp; ring
    · dsimp; ring
    · dsimp
      rw [hclipz, hVw, hd]
      ring
  rw [hXYZ]
  unfold transformCoordinate transformToVec4
  dsimp only
  have h4 : (⟨clip.x / d, clip.y / d, clip.z / d, (1 : ℚ)⟩ : Vec4Qh) =
      smul4 (1 / d) clip := by
    ext <;> dsimp [smul4]
    · ring
    · ring
    · ring
    · rw [hclipw]
      field_simp
  rw [h4, hiVP, apply4_mul, apply4_smul, hinv, apply4_smul, hWV]
  ext <;> dsimp [smul4] <;> field_simp [hdne]

/-- Round trip `viewportToWorldPoint ∘ worldToViewportPoint = id` for an
orthographic camera, over exact arithmetic. -/
theorem roundtrip_ortho (c : CameraP) (p : Vec3Q)
    (hmode : c.isOrthographic = true)
    (hq : c.qx ^ 2 + c.qy ^ 2 + c.qz ^ 2 + c.qw ^ 2 = 1)
    (hos : c.orthographicSize ≠ 0) (ha : c.aspect ≠ 0)
    (hfar : c.nearClipPlane ≠ c.farClipPlane) :
    viewportToWorldPoint c (worldToViewportPoint c p) = p := by
  have hwne : c.orthographicSize * c.aspect ≠ 0 := mul_ne_zero hos ha
  have hnfne : c.nearClipPlane - c.farClipPlane ≠ 0 := sub_ne_zero.mpr hfar
  set V := viewMatrixP c with hV
  set P := orthoQ (-(c.orthographicSize * c.aspect)) (c.orthographicSize * c.aspect)
    (-c.orthographicSize) c.orthographicSize c.nearClipPlane c.farClipPlane with hP
  set vph := V.apply4 ⟨p.x, p.y, p.z, 1⟩ with hvph
  set clip := P.apply4 vph with hclip
  set d := -vph.z with hd
  have hVw : vph.w = 1 := by
    rw [hvph, hV]; exact viewMatrix_apply_w c p.x p.y p.z
  have hcam : transformCoordinate p V = ⟨vph.x, vph.y, vph.z⟩ := by
    unfold transformCoordinate transformToVec4
    rw [← hvph]
    dsimp only
    rw [hVw]
    ext <;> simp
  have hclipw : clip.w = 1 := by
    rw [hclip, hP]
    unfold orthoQ Mat4.apply4
    dsimp
    rw [hVw]
    ring
  have hclipz : clip.z =
      2 * (1 / (c.nearClipPlane - c.farClipPlane)) * vph.z +
      (c.farClipPlane + c.nearClipPlane) *
        (1 / (c.nearClipPlane - c.farClipPlane)) * vph.w := by
    rw [hclip, hP]
    unfold orthoQ Mat4.apply4
    dsimp
    ring
  have hPm : projectionMatrixP c = P := by
    rw [hP]
    unfold projectionMatrixP
    rw [if_neg (by simp [hmode])]
  have htv : transformToVec4 ⟨vph.x, vph.y, vph.z⟩ P = clip := by
    unfold transformToVec4
    rw [hclip]
    congr 1
    ext <;> simp [hVw]
  have hout : worldToViewportPoint c p =
      ⟨(clip.x + 1) * (1 / 2), (1 - clip.y) * (1 / 2), d⟩ := by
    unfold worldToViewportPoint
    dsimp only
    rw [← hV, hcam, hPm, htv, hclipw]
    ext <;> simp [hd]
  have hiVP : invViewProjMatP c = (rotationTranslation c).mul
      (orthoInvQ (c.orthographicSize * c.aspect) c.orthographicSize
        c.nearClipPlane c.farClipPlane) := by
    unfold invViewProjMatP worldMatrixP inverseProjectionMatrixP
    rw [if_neg (by simp [hmode])]
  have hinv : (orthoInvQ (c.orthographicSize * c.aspect) c.orthographicSize
      c.nearClipPlane c.farClipPlane).apply4 clip = vph := by
    rw [hclip, hP]
    exact ortho_inv_id _ _ _ _ hwne hos hnfne vph
  have hWV : (rotationTranslation c).apply4 vph = ⟨p.x, p.y, p.z, 1⟩ := by
    rw [hvph, hV]
    exact world_view_id c hq ⟨p.x, p.y, p.z, 1⟩
  rw [hout]
  unfold viewportToWorldPoint
  dsimp only
  rw [if_pos hmode]
  unfold _innerViewportToWorldPoint
  have hXYZ : (⟨((clip.x + 1) * (1 / 2)) * 2 - 1,
      1 - ((1 - clip.y) * (1 / 2)) * 2,
      ((-d * 2 * (1 / (c.nearClipPlane - c.farClipPlane)) +
          (c.farClipPlane + c.nearClipPlane) *
            (1 / (c.nearClipPlane - c.farClipPlane)) + 1) * (1 / 2)) * 2 - 1⟩ :
      Vec3Q) = ⟨clip.x, clip.y, clip.z⟩ := by
    ext
    · dsimp; ring
    · dsimp; ring
    · dsimp
      rw [hclipz, hVw, hd]
      ring
  rw [hXYZ]
  unfold transformCoordinate transformToVec4
  dsimp only
  have h4 : (⟨clip.x, clip.y, clip.z, (1 : ℚ)⟩ : Vec4Qh) = clip := by
    ext <;> dsimp
    rw [hclipw]
  rw [h4, hiVP, apply4_mul, hinv, hWV]
  ext <;> simp

/-- C3: for every camera (perspective or orthographic, with a unit world
rotation quaternion) and every world point strictly between the near and far
clip planes (a constraint only the perspective division needs),
`viewportToWorldPoint` applied to the result of `worldToViewportPoint`
returns the original point exactly, over exact arithmetic. -/
theorem C3_viewport_world_roundtrip (c : CameraP) (p : Vec3Q)
    (hq : c.qx ^ 2 + c.qy ^ 2 + c.qz ^ 2 + c.qw ^ 2 = 1) :
    (c.isOrthographic = false → 0 < c.fcot → 0 < c.aspect →
      0 < c.nearClipPlane → c.nearClipPlane < c.farClipPlane →
      c.nearClipPlane < -(transformCoordinate p (viewMatrixP c)).z →
      -(transformCoordinate p (viewMatrixP c)).z < c.farClipPlane →
      viewportToWorldPoint c (worldToViewportPoint c p) = p) ∧
    (c.isOrthographic = true → c.orthographicSize ≠ 0 → c.aspect ≠ 0 →
      c.nearClipPlane ≠ c.farClipPlane →
      viewportToWorldPoint c (worldToViewportPoint c p) = p) := by
  constructor
  · intro hmode hfc ha hnear hfar hd1 hd2
    exact roundtrip_perspective c p hmode hq hfc ha hnear hfar hd1 hd2
  · intro hmode hos ha hfar
    exact roundtrip_ortho c p hmode hq hos ha hfar

/-- Witness for C3: the round trip holds at a concrete perspective camera and
a concrete orthographic camera, both with the unit quaternion
`(1/2, 1/2, 1/2, 1/2)` and position `(2, 3, 5)`, on the probe point
`(0, 3, 5)`. -/
theorem C3_viewport_world_roundtrip_witness :
    ((camPersp.qx ^ 2 + camPersp.qy ^ 2 + camPersp.qz ^ 2 + camPersp.qw ^ 2 = 1) ∧
      viewportToWorldPoint camPersp (worldToViewportPoint camPersp pProbe) = pProbe) ∧
    viewportToWorldPoint camOrtho (worldToViewportPoint camOrtho pProbe) = pProbe := by
  refine ⟨⟨by norm_num [camPersp], ?_⟩, ?_⟩
  · exact (C3_viewport_world_roundtrip camPersp pProbe (by norm_num [camPersp])).1
      rfl (by norm_num [camPersp]) (by norm_num [camPersp]) (by norm_num [camPersp])
      (by norm_num [camPersp])
      (by norm_num [camPersp, pProbe, transformCoordinate, transformToVec4,
        viewMatrixP, rotationTranslation, Mat4.apply4])
      (by norm_num [camPersp, pProbe, transformCoordinate, transformToVec4,
        viewMatrixP, rotationTranslation, Mat4.apply4])
  · exact (C3_viewport_world_roundtrip camOrtho pProbe (by norm_num [camOrtho])).2
      rfl (by norm_num [camOrtho]) (by norm_num [camOrtho]) (by norm_num [camOrtho])

end CameraP

end CameraMath

namespace Text2D

theorem sf_get?_set_self {α : Type} (l : List α) (i : Nat) (a : α)
    (h : i < l.length) : (l.set i a).get? i = some a := by
  induction l generalizing i with
  | nil => simp at h
  | cons x xs ih =>
    cases i with
    | zero => rfl
    | succ n => exact ih n (by simpa using h)

theorem sf_getD_set_self {α : Type} (l : List α) (i : Nat) (a d : α)
    (h : i < l.length) : (l.set i a).getD i d = a := by
  induction l generalizing i with
  | nil => simp at h
  | cons x xs ih =>
    cases i with
    | zero => rfl
    | succ n => exact ih n (by simpa using h)

theorem sf_findSome?_isSome_iff {α β : Type} (f : α → Option β)
    (l : List α) : (l.findSome? f).isSome ↔ ∃ a ∈ l, (f a).isSome := by
  induction l with
  | nil => simp [List.findSome?]
  | cons x xs ih =>
    cases hx : f x <;> simp [List.findSome?_cons, hx, ih]

/-- C7: on a `SubFont` with at least one page and the cursor on the last
page, a call to `_uploadCharTexture` keeps the page count when the cursor
page accepts the glyph and creates exactly one additional page when it does
not; in the failure case the fresh page is the one the retried upload ran
against; and `_getCharInfo` succeeds exactly when some page (scanned
linearly, not only the cursor page) holds the character. -/
theorem C7_atlas_overflow_one_new_page_and_full_scan (s : SubFontM)
    (ci : CharInfoM) (ch : Nat) (hne : s.fontAtlases ≠ [])
    (hlast : s.lastIndex = (s.fontAtlases.length : Int) - 1) :
    ((s._uploadCharTexture ci).fontAtlases.length =
      if ((s.fontAtlases.getD (s.fontAtlases.length - 1)
          (FontAtlasM.new 0)).uploadCharTexture ci).1 then
        s.fontAtlases.length
      else s.fontAtlases.length + 1) ∧
    (((s.fontAtlases.getD (s.fontAtlases.length - 1)
        (FontAtlasM.new 0)).uploadCharTexture ci).1 = false →
      (s._uploadCharTexture ci).fontAtlases.getD s.fontAtlases.length
          (FontAtlasM.new 0) =
        ((FontAtlasM.new s.nextTexture).uploadCharTexture ci).2) ∧
    ((s._getCharInfo ch).isSome ↔
      ∃ fa ∈ s.fontAtlases, (fa.getCharInfo ch).isSome) := by
  have hn : 0 < s.fontAtlases.length := List.length_pos.mpr hne
  have hni : ¬ s.lastIndex = -1 := by rw [hlast]; omega
  have ht : s.lastIndex.toNat = s.fontAtlases.length - 1 := by
    rw [hlast]; omega
  refine ⟨?_, ?_, ?_⟩
  · unfold SubFontM._uploadCharTexture SubFontM._createFontAtlas
    dsimp only
    rw [if_neg hni, if_neg hni, ht]
    split
    · dsimp only
      simp
    · dsimp only
      simp
  · intro hfail
    unfold SubFontM._uploadCharTexture SubFontM._createFontAtlas
    dsimp only
    rw [if_neg hni, if_neg hni, ht]
    rw [if_neg (by rw [hfail]; exact Bool.false_ne_true)]
    dsimp only
    have hset : (s.fontAtlases ++ [FontAtlasM.new s.nextTexture]).length - 1 =
        s.fontAtlases.length := by simp
    rw [hset]
    exact sf_getD_set_self _ _ _ _ (by simp)
  · unfold SubFontM._getCharInfo
    exact sf_findSome?_isSome_iff _ _

/-- Witness for C7 at a one-page `SubFont` holding `glyphA` and a glyph
that no longer fits that page. -/
theorem C7_atlas_overflow_one_new_page_and_full_scan_witness :
    ((subFontEx._uploadCharTexture glyphB).fontAtlases.length =
      if ((subFontEx.fontAtlases.getD (subFontEx.fontAtlases.length - 1)
          (FontAtlasM.new 0)).uploadCharTexture glyphB).1 then
        subFontEx.fontAtlases.length
      else subFontEx.fontAtlases.length + 1) ∧
    (((subFontEx.fontAtlases.getD (subFontEx.fontAtlases.length - 1)
        (FontAtlasM.new 0)).uploadCharTexture glyphB).1 = false →
      (subFontEx._uploadCharTexture glyphB).fontAtlases.getD
          subFontEx.fontAtlases.length (FontAtlasM.new 0) =
        ((FontAtlasM.new subFontEx.nextTexture).uploadCharTexture glyphB).2) ∧
    ((subFontEx._getCharInfo 65).isSome ↔
      ∃ fa ∈ subFontEx.fontAtlases, (fa.getCharInfo 65).isSome) :=
  C7_atlas_overflow_one_new_page_and_full_scan subFontEx glyphB 65
    (by decide) (by decide)

/-- C9: a fresh `SubFont` satisfies `lastIndex = pages − 1`, every
`_uploadCharTexture` call preserves it, and once the cursor is
non-negative, `_addCharInfo` stamps the record with the cursor page index,
records it on exactly that page, and `_getTextureByIndex` resolves the
stamp to that page's texture. -/
theorem C9_cursor_tracks_pages_and_stamp (s : SubFontM) (ci ci2 : CharInfoM)
    (hinv : s.lastIndex = (s.fontAtlases.length : Int) - 1) :
    (SubFontM.init.lastIndex = (SubFontM.init.fontAtlases.length : Int) - 1) ∧
    ((s._uploadCharTexture ci).lastIndex =
      ((s._uploadCharTexture ci).fontAtlases.length : Int) - 1) ∧
    (0 ≤ s.lastIndex →
      (s._addCharInfo ci2).2.index = s.lastIndex ∧
      ((s._addCharInfo ci2).1.fontAtlases.getD s.lastIndex.toNat
          (FontAtlasM.new 0)).getCharInfo ci2.ch =
        some (s._addCharInfo ci2).2 ∧
      (s._addCharInfo ci2).1._getTextureByIndex (s._addCharInfo ci2).2.index =
        some ((s.fontAtlases.getD s.lastIndex.toNat
          (FontAtlasM.new 0)).texture)) := by
  refine ⟨by decide, ?_, ?_⟩
  · unfold SubFontM._uploadCharTexture SubFontM._createFontAtlas
    dsimp only
    split_ifs <;> dsimp only <;>
      simp only [List.length_set, List.length_append, List.length_cons,
        List.length_nil] <;> omega
  · intro hpos
    have hlt : s.lastIndex.toNat < s.fontAtlases.length := by omega
    refine ⟨rfl, ?_, ?_⟩
    · unfold SubFontM._addCharInfo
      dsimp only
      rw [sf_getD_set_self _ _ _ _ hlt]
      unfold FontAtlasM.addCharInfo FontAtlasM.getCharInfo
      dsimp only
      rw [List.find?_cons_of_pos _ (by simp)]
    · unfold SubFontM._addCharInfo SubFontM._getTextureByIndex
      dsimp only
      rw [if_neg (by omega)]
      rw [sf_get?_set_self _ _ _ hlt]
      rfl

/-- Witness for C9 at the one-page `SubFont` and a second glyph. -/
theorem C9_cursor_tracks_pages_and_stamp_witness :
    (SubFontM.init.lastIndex = (SubFontM.init.fontAtlases.length : Int) - 1) ∧
    ((subFontEx._uploadCharTexture glyphB).lastIndex =
      ((subFontEx._uploadCharTexture glyphB).fontAtlases.length : Int) - 1) ∧
    (0 ≤ subFontEx.lastIndex →
      (subFontEx._addCharInfo glyphB).2.index = subFontEx.lastIndex ∧
      ((subFontEx._addCharInfo glyphB).1.fontAtlases.getD
          subFontEx.lastIndex.toNat (FontAtlasM.new 0)).getCharInfo
          glyphB.ch = some (subFontEx._addCharInfo glyphB).2 ∧
      (subFontEx._addCharInfo glyphB).1._getTextureByIndex
          (subFontEx._addCharInfo glyphB).2.index =
        some ((subFontEx.fontAtlases.getD subFontEx.lastIndex.toNat
          (FontAtlasM.new 0)).texture)) :=
  C9_cursor_tracks_pages_and_stamp subFontEx glyphB glyphB (by decide)

end Text2D

namespace TextR

/-- C8: `_render` pushes nothing and leaves the whole state — stored
fields and every dirty-flag bit — untouched whenever the text is empty,
or wrapping is on with width ≤ 0, or overflow mode is Truncate with
height ≤ 0. -/
theorem C8_render_early_out_no_state_change (env : TextEnv) (s : TRState)
    (h : s.text = "" ∨ (s.enableWrapping = true ∧ s.width ≤ 0) ∨
      (s.overflowMode = OverflowMode.Truncate ∧ s.height ≤ 0)) :
    _render env s = (s, []) := by
  unfold _render
  rw [if_pos h]

/-- Witness for C8: all three early-out conditions at concrete states. -/
theorem C8_render_early_out_no_state_change_witness :
    _render envEx trEmptyText = (trEmptyText, []) ∧
    _render envEx trWrapZeroWidth = (trWrapZeroWidth, []) ∧
    _render envEx trTruncZeroHeight = (trTruncZeroHeight, []) :=
  ⟨C8_render_early_out_no_state_change envEx trEmptyText (Or.inl rfl),
   C8_render_early_out_no_state_change envEx trWrapZeroWidth
     (Or.inr (Or.inl ⟨rfl, by norm_num [trWrapZeroWidth]⟩)),
   C8_render_early_out_no_state_change envEx trTruncZeroHeight
     (Or.inr (Or.inr ⟨rfl, by norm_num [trTruncZeroHeight]⟩))⟩

/-- C10: assigning `null`/`undefined` to `text` stores the empty string,
and assigning any of the eleven guarded properties a value equal to the
stored one changes neither the stored fields nor any bit of the dirty-flag
word (the state is returned unchanged). -/
theorem C10_null_text_and_equal_value_setters (s : TRState) :
    (set_text s none).text = "" ∧
    set_text s (some s.text) = s ∧
    set_width s s.width = s ∧
    set_height s s.height = s ∧
    set_fontSize s s.fontSize = s ∧
    set_fontStyle s s.fontStyle = s ∧
    set_lineSpacing s s.lineSpacing = s ∧
    set_horizontalAlignment s s.horizontalAlignment = s ∧
    set_verticalAlignment s s.verticalAlignment = s ∧
    set_enableWrapping s s.enableWrapping = s ∧
    set_overflowMode s s.overflowMode = s ∧
    set_maskInteraction s s.maskInteraction = s := by
  refine ⟨?_, ?_, ?_, ?_, ?_, ?_, ?_, ?_, ?_, ?_, ?_, ?_⟩
  · unfold set_text _setDirtyFlagTrue
    dsimp only
    split_ifs with h
    · rfl
    · exact not_ne_iff.mp h
  · unfold set_text
    dsimp only
    rw [if_neg (by simp)]
  · unfold set_width
    rw [if_neg (by simp)]
  · unfold set_height
    rw [if_neg (by simp)]
  · unfold set_fontSize
    rw [if_neg (by simp)]
  · unfold set_fontStyle
    rw [if_neg (by simp)]
  · unfold set_lineSpacing
    rw [if_neg (by simp)]
  · unfold set_horizontalAlignment
    rw [if_neg (by simp)]
  · unfold set_verticalAlignment
    rw [if_neg (by simp)]
  · unfold set_enableWrapping
    rw [if_neg (by simp)]
  · unfold set_overflowMode
    rw [if_neg (by simp)]
  · unfold set_maskInteraction
    rw [if_neg (by simp)]

end TextR

end Oasis
